import Mathlib

/-!
Verification of the NamahAI workflow execution engine
(src/app/api/runs/execute/route.ts and src/stores/workflowRuntimeStore.ts),
as a shallow embedding in Lean 4.

JavaScript `Map` objects (and the plain objects used as input/output bags)
are modelled as association lists with insertion-order iteration:
`set` replaces the value of an existing key in place, otherwise appends
at the end, exactly as a JS `Map` behaves.
-/

namespace Namah

/-- Association map with JS `Map` semantics (insertion-ordered). -/
abbrev AMap (α : Type) : Type := List (String × α)

namespace AMap

def get {α : Type} : AMap α → String → Option α
  | [], _ => none
  | (k', v) :: rest, k => if k' = k then some v else get rest k

/-- JS `Map.set` / property assignment: update in place, else append. -/
def set {α : Type} : AMap α → String → α → AMap α
  | [], k, v => [(k, v)]
  | (k', v') :: rest, k, v =>
      if k' = k then (k, v) :: rest else (k', v') :: set rest k v

theorem get_set_self {α : Type} (m : AMap α) (k : String) (v : α) :
    (m.set k v).get k = some v := by
  induction m with
  | nil => simp [set, get]
  | cons p rest ih =>
      by_cases h : p.1 = k
      · simp [set, get, h]
      · simp [set, get, h, ih]

theorem get_set_ne {α : Type} (m : AMap α) (k k' : String) (v : α) (h : k' ≠ k) :
    (m.set k v).get k' = m.get k' := by
  induction m with
  | nil => simp [set, get, Ne.symm h]
  | cons p rest ih =>
      by_cases hpk : p.1 = k
      · subst hpk
        simp [set, get, Ne.symm h, h]
      · by_cases hpk' : p.1 = k'
        · simp [set, get, hpk, hpk', h]
        · simp [set, get, hpk, hpk', ih]

theorem set_absent {α : Type} (m : AMap α) (k : String) (v : α) (h : m.get k = none) :
    m.set k v = m ++ [(k, v)] := by
  induction m with
  | nil => simp [set]
  | cons p rest ih =>
      by_cases hpk : p.1 = k
      · simp [get, hpk] at h
      · simp [get, hpk] at h
        simp [set, hpk, ih h]

theorem get_append {α : Type} (m₁ m₂ : AMap α) (k : String) :
    (m₁ ++ m₂ : AMap α).get k = ((m₁.get k).or (m₂.get k)) := by
  induction m₁ with
  | nil => simp [get]
  | cons p rest ih =>
      by_cases hpk : p.1 = k
      · simp [get, hpk]
      · simpa [get, hpk] using ih

theorem set_set_same {α : Type} (m : AMap α) (k : String) (v w : α) :
    (m.set k v).set k w = m.set k w := by
  induction m with
  | nil => simp [set]
  | cons p rest ih =>
      by_cases hpk : p.1 = k
      · simp [set, hpk]
      · simp [set, hpk, ih]

theorem set_get_self {α : Type} (m : AMap α) (k : String) (v : α) (h : m.get k = some v) :
    m.set k v = m := by
  induction m with
  | nil => simp [get] at h
  | cons p rest ih =>
      obtain ⟨pk, pv⟩ := p
      by_cases hpk : pk = k
      · subst hpk
        simp [get] at h
        subst h
        simp [set]
      · simp only [get, hpk, if_neg hpk] at h
        simp [set, hpk, ih h]

theorem get_eq_none_iff {α : Type} (m : AMap α) (k : String) :
    m.get k = none ↔ ∀ p ∈ m, p.1 ≠ k := by
  induction m with
  | nil => simp [get]
  | cons p rest ih =>
      by_cases hpk : p.1 = k
      · simp [get, hpk]
      · simp [get, hpk, ih]

end AMap

/-- The record-set view over keyed functions: `mapOf keys g` is the map holding
`g k` at every key of `keys`, in that order. -/
def mapOf {α : Type} (keys : List String) (g : String → α) : AMap α :=
  keys.map (fun k => (k, g k))

theorem get_mapOf {α : Type} (keys : List String) (g : String → α) (k : String) :
    (mapOf keys g).get k = if k ∈ keys then some (g k) else none := by
  induction keys with
  | nil => simp [mapOf, AMap.get]
  | cons a rest ih =>
      by_cases hak : a = k
      · subst hak
        simp [mapOf, AMap.get]
      · simp [mapOf, AMap.get, hak, Ne.symm hak] at ih ⊢
        simpa [mapOf] using ih

theorem set_mapOf {α : Type} (keys : List String) (g : String → α) (k : String) (v : α)
    (hnd : keys.Nodup) (hk : k ∈ keys) :
    (mapOf keys g).set k v = mapOf keys (fun n => if n = k then v else g n) := by
  induction keys with
  | nil => simp at hk
  | cons a rest ih =>
      rcases List.nodup_cons.mp hnd with ⟨ha, hndr⟩
      by_cases hak : a = k
      · subst hak
        simp only [mapOf, List.map_cons, AMap.set, if_pos rfl, if_pos trivial]
        simp only [List.cons.injEq, true_and]
        apply List.map_congr_left
        intro x hx
        have hxa : ¬ x = a := fun h => ha (h ▸ hx)
        simp [hxa]
      · have hk' : k ∈ rest := by
          cases hk with
          | head => exact absurd rfl hak
          | tail _ h => exact h
        have ihr := ih hndr hk'
        simp only [mapOf] at ihr
        simp [mapOf, AMap.set, hak, ihr]

theorem filter_map_mapOf (keys : List String) (g : String → Nat) :
    (((mapOf keys g).filter (fun p => p.2 == 0)).map Prod.fst)
      = keys.filter (fun n => g n == 0) := by
  induction keys with
  | nil => simp [mapOf]
  | cons a rest ih =>
      by_cases h : g a = 0
      · simpa [mapOf, List.filter_cons, h] using ih
      · simpa [mapOf, List.filter_cons, h] using ih

/-! ## The scheduler (GraphBuilder + Kahn's algorithm)

Shallow embedding of src/app/api/runs/execute/route.ts lines 61-93.
Nodes enter the scheduler as their id strings; edges carry source, target
and the target handle (the only edge fields the execute route reads). -/

/-- Persisted edge record, restricted to the fields the execute route uses. -/
structure Edge where
  sourceId : String
  targetId : String
  targetHandle : Option String
deriving DecidableEq, Repr

/-- `adjList` built by the two loops at lines 65-75: every node id is
seeded with `[]`, then each edge appends its target to its source's list
(`adjList.get(edge.sourceId) || []` followed by a push). -/
def buildAdj (nodes : List String) (edges : List Edge) : AMap (List String) :=
  edges.foldl
    (fun m e => m.set e.sourceId (((m.get e.sourceId).getD []) ++ [e.targetId]))
    (nodes.foldl (fun m n => m.set n []) [])

/-- `inDegree` built by the same loops: every node id seeded with `0`,
then each edge increments its target's count
(`(inDegree.get(edge.targetId) || 0) + 1`). -/
def buildInDegree (nodes : List String) (edges : List Edge) : AMap Nat :=
  edges.foldl
    (fun m e => m.set e.targetId (((m.get e.targetId).getD 0) + 1))
    (nodes.foldl (fun m n => m.set n 0) [])

/-- JS `x || 1` on a possibly-missing number: `undefined` and `0` both give 1. -/
def jsOrOne : Option Nat → Nat
  | some n => if n = 0 then 1 else n
  | none => 1

/-- One pass of the inner `for (const neighbor of adjList.get(nodeId) || [])`
loop (lines 88-92): decrement each neighbor via `(inDegree.get(neighbor) || 1) - 1`
and push those that reach zero onto the back of the queue. -/
def processNbrs (deg : AMap Nat) (queue : List String) (nbrs : List String) :
    AMap Nat × List String :=
  nbrs.foldl
    (fun p nb =>
      let newDegree := jsOrOne (p.1.get nb) - 1
      (p.1.set nb newDegree, if newDegree = 0 then p.2 ++ [nb] else p.2))
    (deg, queue)

/-- The `while (queue.length > 0)` loop (lines 84-93), with explicit fuel.
The fuel supplied by `executionOrder` is proven sufficient for every input
the claims quantify over, so the fuel-exhausted branch is never taken there. -/
def kahnLoop (adj : AMap (List String)) :
    Nat → List String → AMap Nat → List String → List String
  | 0, _, _, order => order
  | fuel + 1, queue, deg, order =>
      match queue with
      | [] => order
      | nodeId :: rest =>
          let nbrs := (adj.get nodeId).getD []
          let p := processNbrs deg rest nbrs
          kahnLoop adj fuel p.2 p.1 (order ++ [nodeId])

/-- The Scheduler: build adjacency and in-degree maps, seed the FIFO queue with
the zero in-degree entries in map iteration order (lines 78-81), and run
Kahn's algorithm. -/
def executionOrder (nodes : List String) (edges : List Edge) : List String :=
  let adj := buildAdj nodes edges
  let deg := buildInDegree nodes edges
  let queue := (deg.filter (fun p => p.2 == 0)).map Prod.fst
  kahnLoop adj (nodes.length + edges.length + 1) queue deg []

/-! ## Scheduler analysis -/

/-- Edges into `x` whose source has not been appended to `order` yet:
the value held by the `inDegree` counter of `x` at any top-of-loop point. -/
def residDeg (edges : List Edge) (order : List String) (x : String) : Nat :=
  edges.countP (fun e => decide (e.targetId = x ∧ e.sourceId ∉ order))

/-- Targets of the edges leaving `v`, in edge-list order: the adjacency list of `v`. -/
def outNbrs (edges : List Edge) (v : String) : List String :=
  (edges.filter (fun e => e.sourceId == v)).map Edge.targetId

/-- One-step reachability along the edge list. -/
def edgeRel (edges : List Edge) (u v : String) : Prop :=
  ∃ e ∈ edges, e.sourceId = u ∧ e.targetId = v

theorem mem_outNbrs {edges : List Edge} {v x : String} (h : x ∈ outNbrs edges v) :
    ∃ e ∈ edges, e.sourceId = v ∧ e.targetId = x := by
  simp only [outNbrs, List.mem_map, List.mem_filter] at h
  obtain ⟨e, ⟨he, hs⟩, ht⟩ := h
  exact ⟨e, he, by simpa using hs, ht⟩

theorem foldl_set_const {α : Type} (c : α) :
    ∀ (ks : List String) (acc : AMap α), ks.Nodup →
      (∀ k ∈ ks, acc.get k = none) →
      ks.foldl (fun m k => m.set k c) acc = acc ++ mapOf ks (fun _ => c)
  | [], acc, _, _ => by simp [mapOf]
  | a :: rest, acc, hnd, habs => by
      rcases List.nodup_cons.mp hnd with ⟨ha, hndr⟩
      have h1 : acc.set a c = acc ++ [(a, c)] :=
        AMap.set_absent acc a c (habs a (by simp))
      have h2 : ∀ k ∈ rest, (acc ++ [(a, c)] : AMap α).get k = none := by
        intro k hk
        rw [AMap.get_append]
        have hka : ¬ a = k := fun h => ha (h ▸ hk)
        simp [habs k (by simp [hk]), AMap.get, hka]
      simp only [List.foldl_cons, h1]
      rw [foldl_set_const c rest (acc ++ [(a, c)]) hndr h2]
      simp [mapOf]

theorem buildInDegree_eq (nodes : List String) (edges : List Edge)
    (hnd : nodes.Nodup) (hWF : ∀ e ∈ edges, e.targetId ∈ nodes) :
    buildInDegree nodes edges
      = mapOf nodes (fun n => edges.countP (fun e => decide (e.targetId = n))) := by
  have hinit : nodes.foldl (fun m n => AMap.set m n 0) ([] : AMap Nat)
      = mapOf nodes (fun _ => 0) := by
    simpa using foldl_set_const 0 nodes [] hnd (by simp [AMap.get])
  have main : ∀ (es : List Edge) (g : String → Nat), (∀ e ∈ es, e.targetId ∈ nodes) →
      es.foldl (fun m e => m.set e.targetId (((m.get e.targetId).getD 0) + 1)) (mapOf nodes g)
        = mapOf nodes (fun n => g n + es.countP (fun e => decide (e.targetId = n))) := by
    intro es
    induction es with
    | nil => intro g _; simp [mapOf]
    | cons e es ih =>
        intro g hes
        have het : e.targetId ∈ nodes := hes e (by simp)
        have hget : (mapOf nodes g).get e.targetId = some (g e.targetId) := by
          simp [get_mapOf, het]
        simp only [List.foldl_cons, hget, Option.getD_some]
        rw [set_mapOf nodes g e.targetId _ hnd het]
        rw [ih _ (fun e' he' => hes e' (by simp [he']))]
        apply congrArg
        funext n
        by_cases hn : e.targetId = n
        · simp [hn, List.countP_cons]
          omega
        · have hne : ¬ n = e.targetId := fun h => hn h.symm
          simp [List.countP_cons, hn, hne]
  unfold buildInDegree
  rw [hinit, main edges (fun _ => 0) hWF]
  simp

theorem buildAdj_eq (nodes : List String) (edges : List Edge)
    (hnd : nodes.Nodup) (hWF : ∀ e ∈ edges, e.sourceId ∈ nodes) :
    buildAdj nodes edges = mapOf nodes (fun n => outNbrs edges n) := by
  have hinit : nodes.foldl (fun m n => AMap.set m n []) ([] : AMap (List String))
      = mapOf nodes (fun _ => []) := by
    simpa using foldl_set_const [] nodes [] hnd (by simp [AMap.get])
  have main : ∀ (es : List Edge) (g : String → List String), (∀ e ∈ es, e.sourceId ∈ nodes) →
      es.foldl (fun m e => m.set e.sourceId (((m.get e.sourceId).getD []) ++ [e.targetId]))
          (mapOf nodes g)
        = mapOf nodes (fun n => g n ++ outNbrs es n) := by
    intro es
    induction es with
    | nil => intro g _; simp [mapOf, outNbrs]
    | cons e es ih =>
        intro g hes
        have hsrc : e.sourceId ∈ nodes := hes e (by simp)
        have hget : (mapOf nodes g).get e.sourceId = some (g e.sourceId) := by
          simp [get_mapOf, hsrc]
        simp only [List.foldl_cons, hget, Option.getD_some]
        rw [set_mapOf nodes g e.sourceId _ hnd hsrc]
        rw [ih _ (fun e' he' => hes e' (by simp [he']))]
        apply congrArg
        funext n
        by_cases hn : n = e.sourceId
        · simp [hn, outNbrs, List.filter_cons]
        · have hne : ¬ e.sourceId = n := fun h => hn h.symm
          simp [hn, hne, outNbrs, List.filter_cons]
  unfold buildAdj
  rw [hinit, main edges (fun _ => []) hWF]
  simp

theorem residDeg_nil (edges : List Edge) (x : String) :
    residDeg edges [] x = edges.countP (fun e => decide (e.targetId = x)) := by
  unfold residDeg
  apply List.countP_congr
  intro e _
  simp

/-- Splitting the residual in-degree at the moment `v` is appended to the order:
the old counter value is the new one plus the number of edges `v → x`. -/
theorem residDeg_snoc (edges : List Edge) (order : List String) (v x : String)
    (hv : v ∉ order) :
    residDeg edges order x
      = residDeg edges (order ++ [v]) x + (outNbrs edges v).count x := by
  induction edges with
  | nil => simp [residDeg, outNbrs]
  | cons e es ih =>
      simp only [residDeg, outNbrs] at ih ⊢
      by_cases hs : e.sourceId = v <;> by_cases ht : e.targetId = x <;>
        simp [List.countP_cons, List.filter_cons, List.count_cons, hs, ht, hv,
          List.mem_append, beq_iff_eq] at ih ⊢ <;>
        omega

theorem count_outNbrs_le (edges : List Edge) (order : List String) (v x : String)
    (hv : v ∉ order) :
    (outNbrs edges v).count x ≤ residDeg edges order x := by
  rw [residDeg_snoc edges order v x hv]
  omega

/-- Specification of one full pass of the neighbor-decrement loop: starting
from counters `g`, the counters drop by the multiplicities in `ts`, and the
nodes appended to the queue are exactly those whose counter reaches zero in
the pass, each exactly once. -/
theorem processNbrs_spec (nodes : List String) (hnd : nodes.Nodup) :
    ∀ (ts : List String) (g : String → Nat) (q : List String),
      (∀ x ∈ ts, x ∈ nodes) → (∀ x, ts.count x ≤ g x) →
      ∃ ps : List String,
        processNbrs (mapOf nodes g) q ts
            = (mapOf nodes (fun n => g n - ts.count n), q ++ ps) ∧
        ps.Nodup ∧ (∀ x, x ∈ ps ↔ (0 < g x ∧ g x = ts.count x))
  | [], g, q, _, _ => by
      refine ⟨[], ?_, by simp, ?_⟩
      · simp [processNbrs]
      · intro x
        simp
        omega
  | t :: ts', g, q, hmem, hcount => by
      have ht : t ∈ nodes := hmem t (by simp)
      have hgt : 1 ≤ g t := le_trans (by simp [List.count_cons_self]) (hcount t)
      have hget : (mapOf nodes g).get t = some (g t) := by simp [get_mapOf, ht]
      have hjs : jsOrOne (some (g t)) = g t := by
        simp [jsOrOne]
        omega
      set g₁ : String → Nat := fun n => if n = t then g t - 1 else g n with hg₁
      have hset : (mapOf nodes g).set t (g t - 1) = mapOf nodes g₁ :=
        set_mapOf nodes g t (g t - 1) hnd ht
      have hcount₁ : ∀ x, ts'.count x ≤ g₁ x := by
        intro x
        by_cases hx : x = t
        · subst hx
          have := hcount x
          simp [List.count_cons_self] at this
          simp [hg₁]
          omega
        · have := hcount x
          rw [List.count_cons_of_ne hx] at this
          simpa [hg₁, hx] using this
      obtain ⟨ps', heq', hnd', hmem'⟩ :=
        processNbrs_spec nodes hnd ts' g₁ (if g t - 1 = 0 then q ++ [t] else q)
          (fun x hx => hmem x (by simp [hx])) hcount₁
      refine ⟨(if g t = 1 then [t] else []) ++ ps', ?_, ?_, ?_⟩
      · have hstep : processNbrs (mapOf nodes g) q (t :: ts')
            = processNbrs (mapOf nodes g₁) (if g t - 1 = 0 then q ++ [t] else q) ts' := by
          simp only [processNbrs, List.foldl_cons, hget, hjs, hset]
        rw [hstep, heq']
        rw [Prod.mk.injEq]
        constructor
        · apply congrArg
          funext n
          by_cases hn : n = t
          · subst hn
            simp [hg₁, List.count_cons_self]
            omega
          · simp [hg₁, hn, List.count_cons_of_ne (fun h => hn h)]
        · have hone : (g t - 1 = 0) ↔ (g t = 1) := by omega
          by_cases h1 : g t = 1
          · simp [h1, hone]
          · simp [h1, hone]
      · by_cases h1 : g t = 1
        · have htps' : t ∉ ps' := by
            intro hc
            have := (hmem' t).mp hc
            simp [hg₁, h1] at this
          simp [h1, List.nodup_cons, htps', hnd']
        · simpa [h1] using hnd'
      · intro x
        by_cases hx : x = t
        · subst hx
          have hcts : ts'.count x + 1 ≤ g x := by
            have := hcount x
            simpa [List.count_cons_self] using this
          by_cases h1 : g x = 1
          · simp [h1, hmem' x, hg₁, List.count_cons_self]
            omega
          · simp [h1, hmem' x, hg₁, List.count_cons_self]
            omega
        · simp [hx, hmem' x, hg₁, List.count_cons_of_ne (fun h => hx h)]

theorem indexOf_append_snoc (order : List String) (v : String) (hv : v ∉ order) :
    (order ++ [v]).indexOf v = order.length := by
  induction order with
  | nil => simp
  | cons a rest ih =>
      have hav : ¬ (a = v) := fun h => hv (by simp [h])
      have hvr : v ∉ rest := fun h => hv (by simp [h])
      simp [List.indexOf_cons, hav, ih hvr]

theorem length_le_of_nodup_subset (l₁ l₂ : List String)
    (h₁ : l₁.Nodup) (hsub : ∀ x ∈ l₁, x ∈ l₂) : l₁.length ≤ l₂.length := by
  calc l₁.length = l₁.toFinset.card := (List.toFinset_card_of_nodup h₁).symm
    _ ≤ l₂.toFinset.card := Finset.card_le_card (by
          intro x hx
          simp only [List.mem_toFinset] at hx ⊢
          exact hsub x hx)
    _ ≤ l₂.length := List.toFinset_card_le l₂

theorem mem_of_nodup_subset_ge (l₁ l₂ : List String)
    (h₁ : l₁.Nodup) (h₂ : l₂.Nodup) (hsub : ∀ x ∈ l₁, x ∈ l₂)
    (hlen : l₂.length ≤ l₁.length) : ∀ x ∈ l₂, x ∈ l₁ := by
  have hfin : l₁.toFinset = l₂.toFinset := by
    apply Finset.eq_of_subset_of_card_le
    · intro x hx
      simp only [List.mem_toFinset] at hx ⊢
      exact hsub x hx
    · rw [List.toFinset_card_of_nodup h₁, List.toFinset_card_of_nodup h₂]
      exact hlen
  intro x hx
  have : x ∈ l₁.toFinset := by rw [hfin]; simpa using hx
  simpa using this

/-- The loop invariant of Kahn's algorithm at the top of each `while` iteration. -/
structure KahnInv (nodes : List String) (edges : List Edge)
    (queue order : List String) : Prop where
  order_nodup : order.Nodup
  queue_nodup : queue.Nodup
  disj : ∀ x ∈ queue, x ∉ order
  order_sub : ∀ x ∈ order, x ∈ nodes
  queue_sub : ∀ x ∈ queue, x ∈ nodes
  queue_iff : ∀ x ∈ nodes, (x ∈ queue ↔ (residDeg edges order x = 0 ∧ x ∉ order))
  order_resid : ∀ x ∈ order, residDeg edges order x = 0
  topo : ∀ e ∈ edges, e.targetId ∈ order →
    e.sourceId ∈ order ∧ order.indexOf e.sourceId < order.indexOf e.targetId

/-- What holds of the order the loop finally returns. -/
structure KahnOut (nodes : List String) (edges : List Edge) (L : List String) : Prop where
  nodup : L.Nodup
  sub : ∀ x ∈ L, x ∈ nodes
  topo : ∀ e ∈ edges, e.targetId ∈ L →
    e.sourceId ∈ L ∧ L.indexOf e.sourceId < L.indexOf e.targetId
  complete : ∀ x ∈ nodes, x ∉ L → residDeg edges L x ≠ 0

theorem kahnLoop_spec (nodes : List String) (edges : List Edge)
    (hnd : nodes.Nodup)
    (hWF : ∀ e ∈ edges, e.sourceId ∈ nodes ∧ e.targetId ∈ nodes) :
    ∀ (fuel : Nat) (queue order : List String),
      KahnInv nodes edges queue order →
      nodes.length ≤ fuel + order.length →
      KahnOut nodes edges
        (kahnLoop (buildAdj nodes edges) fuel queue
          (mapOf nodes (residDeg edges order)) order) := by
  intro fuel
  induction fuel with
  | zero =>
      intro queue order inv hfuel
      simp only [kahnLoop]
      have hcov : ∀ x ∈ nodes, x ∈ order :=
        mem_of_nodup_subset_ge order nodes inv.order_nodup hnd inv.order_sub
          (by omega)
      exact ⟨inv.order_nodup, inv.order_sub, inv.topo,
        fun x hx hnx => absurd (hcov x hx) hnx⟩
  | succ fuel ih =>
      intro queue order inv hfuel
      match queue with
      | [] =>
          simp only [kahnLoop]
          refine ⟨inv.order_nodup, inv.order_sub, inv.topo, ?_⟩
          intro x hx hnx hres
          have := (inv.queue_iff x hx).mpr ⟨hres, hnx⟩
          simp at this
      | v :: rest =>
          have hvq : v ∈ v :: rest := by simp
          have hv_nodes : v ∈ nodes := inv.queue_sub v hvq
          have hv_not : v ∉ order := inv.disj v hvq
          have hv_res : residDeg edges order v = 0 :=
            ((inv.queue_iff v hv_nodes).mp hvq).1
          obtain ⟨hrest_nodup, hv_rest⟩ :
              rest.Nodup ∧ v ∉ rest := by
            have := inv.queue_nodup
            rw [List.nodup_cons] at this
            exact ⟨this.2, this.1⟩
          have hadj : (buildAdj nodes edges).get v = some (outNbrs edges v) := by
            rw [buildAdj_eq nodes edges hnd (fun e he => (hWF e he).1)]
            simp [get_mapOf, hv_nodes]
          have hnbr_sub : ∀ x ∈ outNbrs edges v, x ∈ nodes := by
            intro x hx
            obtain ⟨e, he, _, ht⟩ := mem_outNbrs hx
            exact ht ▸ (hWF e he).2
          have hcnt : ∀ x, (outNbrs edges v).count x ≤ residDeg edges order x :=
            fun x => count_outNbrs_le edges order v x hv_not
          obtain ⟨ps, heq, hps_nodup, hps_mem⟩ :=
            processNbrs_spec nodes hnd (outNbrs edges v) (residDeg edges order)
              rest hnbr_sub hcnt
          have hresid_new : (fun n => residDeg edges order n - (outNbrs edges v).count n)
              = residDeg edges (order ++ [v]) := by
            funext n
            have := residDeg_snoc edges order v n hv_not
            omega
          have hstep : kahnLoop (buildAdj nodes edges) (fuel + 1) (v :: rest)
                (mapOf nodes (residDeg edges order)) order
              = kahnLoop (buildAdj nodes edges) fuel (rest ++ ps)
                (mapOf nodes (residDeg edges (order ++ [v]))) (order ++ [v]) := by
            simp only [kahnLoop, hadj, Option.getD_some, heq]
            rw [hresid_new]
          rw [hstep]
          -- facts about the new order and queue
          have hres_le : ∀ x, residDeg edges (order ++ [v]) x ≤ residDeg edges order x := by
            intro x
            have := residDeg_snoc edges order v x hv_not
            omega
          have horder_res' : ∀ x ∈ order ++ [v], residDeg edges (order ++ [v]) x = 0 := by
            intro x hx
            rcases List.mem_append.mp hx with hx | hx
            · have := inv.order_resid x hx
              have := hres_le x
              omega
            · have hx' : x = v := by simpa using hx
              subst hx'
              have := hres_le x
              omega
          have hps_not : ∀ x ∈ ps, x ∉ order ∧ x ≠ v := by
            intro x hx
            have hres := (hps_mem x).mp hx
            constructor
            · intro hc
              have := inv.order_resid x hc
              omega
            · intro hc
              subst hc
              omega
          have hrest_not : ∀ x ∈ rest, x ∉ order ∧ x ≠ v := by
            intro x hx
            exact ⟨inv.disj x (by simp [hx]), fun h => hv_rest (h ▸ hx)⟩
          have hps_sub : ∀ x ∈ ps, x ∈ nodes := by
            intro x hx
            have hres := (hps_mem x).mp hx
            have : x ∈ outNbrs edges v := List.count_pos_iff.mp (by omega)
            exact hnbr_sub x this
          have hrest_res : ∀ x ∈ rest, residDeg edges order x = 0 := by
            intro x hx
            exact ((inv.queue_iff x (inv.queue_sub x (by simp [hx]))).mp (by simp [hx])).1
          have hdisj_rp : ∀ x ∈ rest, x ∉ ps := by
            intro x hx hc
            have := (hps_mem x).mp hc
            have := hrest_res x hx
            omega
          refine ih (rest ++ ps) (order ++ [v]) ?_ ?_
          · refine ⟨?_, ?_, ?_, ?_, ?_, ?_, horder_res', ?_⟩
            · rw [List.nodup_append]
              refine ⟨inv.order_nodup, by simp, ?_⟩
              intro x hx
              simp only [List.mem_singleton]
              intro h
              exact hv_not (h ▸ hx)
            · rw [List.nodup_append]
              exact ⟨hrest_nodup, hps_nodup, fun x hx => hdisj_rp x hx⟩
            · intro x hx
              rcases List.mem_append.mp hx with hx | hx
              · have := hrest_not x hx
                intro hc
                rcases List.mem_append.mp hc with hc | hc
                · exact this.1 hc
                · exact this.2 (by simpa using hc)
              · have := hps_not x hx
                intro hc
                rcases List.mem_append.mp hc with hc | hc
                · exact this.1 hc
                · exact this.2 (by simpa using hc)
            · intro x hx
              rcases List.mem_append.mp hx with hx | hx
              · exact inv.order_sub x hx
              · have : x = v := by simpa using hx
                exact this ▸ hv_nodes
            · intro x hx
              rcases List.mem_append.mp hx with hx | hx
              · exact inv.queue_sub x (by simp [hx])
              · exact hps_sub x hx
            · intro x hxn
              constructor
              · intro hx
                rcases List.mem_append.mp hx with hx | hx
                · have h0 := hrest_res x hx
                  have hle := hres_le x
                  have hnot := hrest_not x hx
                  refine ⟨by omega, ?_⟩
                  intro hc
                  rcases List.mem_append.mp hc with hc | hc
                  · exact hnot.1 hc
                  · exact hnot.2 (by simpa using hc)
                · have hres := (hps_mem x).mp hx
                  have := residDeg_snoc edges order v x hv_not
                  have hnot := hps_not x hx
                  refine ⟨by omega, ?_⟩
                  intro hc
                  rcases List.mem_append.mp hc with hc | hc
                  · exact hnot.1 hc
                  · exact hnot.2 (by simpa using hc)
              · rintro ⟨hres0, hnotin⟩
                have hxo : x ∉ order := fun h => hnotin (by simp [h])
                have hxv : x ≠ v := fun h => hnotin (by simp [h])
                have hsnoc := residDeg_snoc edges order v x hv_not
                by_cases h0 : residDeg edges order x = 0
                · have : x ∈ v :: rest := (inv.queue_iff x hxn).mpr ⟨h0, hxo⟩
                  rcases this with _ | ⟨_, hx⟩
                  · exact absurd rfl hxv
                  · exact List.mem_append.mpr (Or.inl (by assumption))
                · have : x ∈ ps := (hps_mem x).mpr ⟨by omega, by omega⟩
                  exact List.mem_append.mpr (Or.inr this)
            · intro e he htgt
              by_cases ht : e.targetId ∈ order
              · obtain ⟨hsrc, hidx⟩ := inv.topo e he ht
                refine ⟨List.mem_append.mpr (Or.inl hsrc), ?_⟩
                rw [List.indexOf_append_of_mem hsrc, List.indexOf_append_of_mem ht]
                exact hidx
              · have htv : e.targetId = v := by
                  rcases List.mem_append.mp htgt with h | h
                  · exact absurd h ht
                  · simpa using h
                have hsrc : e.sourceId ∈ order := by
                  have := hv_res
                  unfold residDeg at this
                  rw [List.countP_eq_zero] at this
                  have he' := this e he
                  simp only [decide_eq_true_eq, not_and, not_not] at he'
                  by_contra hc
                  exact absurd (he' (htv ▸ rfl)) hc
                refine ⟨List.mem_append.mpr (Or.inl hsrc), ?_⟩
                rw [List.indexOf_append_of_mem hsrc, htv,
                  indexOf_append_snoc order v hv_not]
                exact List.indexOf_lt_length.mpr hsrc
          · simp only [List.length_append, List.length_singleton]
            omega

/-- The state handed to the Kahn loop by `executionOrder` satisfies the invariant,
so the order it returns satisfies `KahnOut`. -/
theorem executionOrder_spec (nodes : List String) (edges : List Edge)
    (hnd : nodes.Nodup)
    (hWF : ∀ e ∈ edges, e.sourceId ∈ nodes ∧ e.targetId ∈ nodes) :
    KahnOut nodes edges (executionOrder nodes edges) := by
  have hEO : executionOrder nodes edges
      = kahnLoop (buildAdj nodes edges) (nodes.length + edges.length + 1)
          (((buildInDegree nodes edges).filter (fun p => p.2 == 0)).map Prod.fst)
          (buildInDegree nodes edges) [] := rfl
  have hdeg : buildInDegree nodes edges = mapOf nodes (residDeg edges []) := by
    rw [buildInDegree_eq nodes edges hnd (fun e he => (hWF e he).2)]
    apply congrArg
    funext n
    exact (residDeg_nil edges n).symm
  have hqueue : (((buildInDegree nodes edges).filter (fun p => p.2 == 0)).map Prod.fst)
      = nodes.filter (fun n => residDeg edges [] n == 0) := by
    rw [hdeg]
    exact filter_map_mapOf nodes (residDeg edges [])
  rw [hEO, hqueue, hdeg]
  apply kahnLoop_spec nodes edges hnd hWF
  · refine ⟨by simp, List.Nodup.filter _ hnd, by simp, by simp, ?_, ?_, by simp, by simp⟩
    · intro x hx
      exact (List.mem_filter.mp hx).1
    · intro x hxn
      simp [List.mem_filter, hxn]
  · simp
    omega

/-- A finite nonempty set of nodes in which every node has an `edgeRel`
predecessor inside the set contains a cycle. -/
theorem cycle_of_all_have_pred (edges : List Edge) (S : List String) (hne : S ≠ [])
    (hpred : ∀ x ∈ S, ∃ u ∈ S, edgeRel edges u x) :
    ∃ a, Relation.TransGen (edgeRel edges) a a := by
  have hTn : ∀ y : {y // y ∈ S}, ∃ u : {y // y ∈ S}, edgeRel edges u.val y.val := by
    rintro ⟨y, hy⟩
    obtain ⟨u, hu, hr⟩ := hpred y hy
    exact ⟨⟨u, hu⟩, hr⟩
  classical
  let F : {y // y ∈ S} → {y // y ∈ S} := fun y => (hTn y).choose
  have hF : ∀ y : {y // y ∈ S}, edgeRel edges (F y).val y.val := fun y => (hTn y).choose_spec
  have hy₀ : ∃ y, y ∈ S := by
    cases S with
    | nil => exact absurd rfl hne
    | cons a t => exact ⟨a, by simp⟩
  obtain ⟨y₀v, hy₀v⟩ := hy₀
  let seq : Nat → {y // y ∈ S} := fun n => F^[n] ⟨y₀v, hy₀v⟩
  have hseq : ∀ n, edgeRel edges (seq (n + 1)).val (seq n).val := by
    intro n
    have hit : seq (n + 1) = F (seq n) := Function.iterate_succ_apply' F n _
    rw [hit]
    exact hF _
  have hchain : ∀ d n, Relation.TransGen (edgeRel edges) (seq (n + d + 1)).val (seq n).val := by
    intro d
    induction d with
    | zero => intro n; exact Relation.TransGen.single (hseq n)
    | succ d ihd =>
        intro n
        have h1 := ihd (n + 1)
        have h2 := hseq n
        have harith : n + 1 + d + 1 = n + (d + 1) + 1 := by omega
        rw [harith] at h1
        exact Relation.TransGen.tail h1 h2
  have hlen : 0 < S.length := List.length_pos.mpr hne
  let f : Fin (S.length + 1) → Fin S.length := fun i =>
    ⟨S.indexOf (seq i.val).val, List.indexOf_lt_length.mpr (seq i.val).property⟩
  obtain ⟨i, j, hij, hfeq⟩ := Fintype.exists_ne_map_eq_of_card_lt f (by simp)
  have hvals : (seq i.val).val = (seq j.val).val := by
    have hidx : S.indexOf (seq i.val).val = S.indexOf (seq j.val).val := by
      have := congrArg Fin.val hfeq
      simpa [f] using this
    exact (List.indexOf_inj (seq i.val).property (seq j.val).property).mp hidx
  have main : ∀ m k : Nat, m < k → (seq m).val = (seq k).val →
      ∃ a, Relation.TransGen (edgeRel edges) a a := by
    intro m k hmk heqv
    have hk : k = m + (k - m - 1) + 1 := by omega
    have := hchain (k - m - 1) m
    rw [← hk] at this
    rw [heqv] at this
    exact ⟨(seq k).val, this⟩
  rcases lt_or_gt_of_ne (fun h : i.val = j.val => hij (Fin.ext h)) with hlt | hlt
  · exact main i.val j.val hlt hvals
  · exact main j.val i.val hlt hvals.symm

/-- Claim C1: for every acyclic well-formed graph (the node-id list has no
duplicate ids, every edge references listed nodes), the Scheduler's output
order has length equal to the number of nodes, and for every edge (u, v),
u appears strictly before v in the order. -/
theorem claim_c1_scheduler_topological (nodes : List String) (edges : List Edge)
    (hnd : nodes.Nodup)
    (hWF : ∀ e ∈ edges, e.sourceId ∈ nodes ∧ e.targetId ∈ nodes)
    (hacyc : ∀ a, ¬ Relation.TransGen (edgeRel edges) a a) :
    (executionOrder nodes edges).length = nodes.length ∧
    ∀ e ∈ edges, ∃ i j : Nat, i < j ∧
      (executionOrder nodes edges).get? i = some e.sourceId ∧
      (executionOrder nodes edges).get? j = some e.targetId := by
  obtain ⟨hLnd, hLsub, hLtopo, hLcomp⟩ := executionOrder_spec nodes edges hnd hWF
  have hcov : ∀ x ∈ nodes, x ∈ executionOrder nodes edges := by
    by_contra hc
    push_neg at hc
    obtain ⟨x₀, hx₀n, hx₀L⟩ := hc
    have hSmem : ∀ y, y ∈ nodes.filter (fun n => decide (n ∉ executionOrder nodes edges))
        ↔ (y ∈ nodes ∧ y ∉ executionOrder nodes edges) := by
      intro y
      simp [List.mem_filter]
    have hSne : nodes.filter (fun n => decide (n ∉ executionOrder nodes edges)) ≠ [] := by
      intro h
      have := (hSmem x₀).mpr ⟨hx₀n, hx₀L⟩
      rw [h] at this
      simp at this
    have hpred : ∀ x ∈ nodes.filter (fun n => decide (n ∉ executionOrder nodes edges)),
        ∃ u ∈ nodes.filter (fun n => decide (n ∉ executionOrder nodes edges)),
          edgeRel edges u x := by
      intro x hx
      obtain ⟨hxn, hxL⟩ := (hSmem x).mp hx
      have hne0 := hLcomp x hxn hxL
      have hpos : 0 < edges.countP
          (fun e => decide (e.targetId = x ∧ e.sourceId ∉ executionOrder nodes edges)) :=
        Nat.pos_of_ne_zero hne0
      obtain ⟨e, he, hp⟩ := List.countP_pos_iff.mp hpos
      simp only [decide_eq_true_eq] at hp
      obtain ⟨hte, hse⟩ := hp
      exact ⟨e.sourceId, (hSmem _).mpr ⟨(hWF e he).1, hse⟩, ⟨e, he, rfl, hte⟩⟩
    obtain ⟨a, ha⟩ := cycle_of_all_have_pred edges _ hSne hpred
    exact hacyc a ha
  constructor
  · have h1 : (executionOrder nodes edges).length ≤ nodes.length :=
      length_le_of_nodup_subset _ nodes hLnd hLsub
    have h2 : nodes.length ≤ (executionOrder nodes edges).length :=
      length_le_of_nodup_subset nodes _ hnd hcov
    omega
  · intro e he
    have htL : e.targetId ∈ executionOrder nodes edges := hcov _ (hWF e he).2
    obtain ⟨hsL, hidx⟩ := hLtopo e he htL
    exact ⟨(executionOrder nodes edges).indexOf e.sourceId,
      (executionOrder nodes edges).indexOf e.targetId, hidx,
      List.indexOf_get? hsL, List.indexOf_get? htL⟩

/-- Witness for C1 at a concrete acyclic graph (one node, no edges). -/
theorem claim_c1_scheduler_topological_witness :
    (executionOrder ["a"] []).length = (["a"] : List String).length ∧
    ∀ e ∈ ([] : List Edge), ∃ i j : Nat, i < j ∧
      (executionOrder ["a"] []).get? i = some e.sourceId ∧
      (executionOrder ["a"] []).get? j = some e.targetId :=
  claim_c1_scheduler_topological ["a"] [] (by simp) (by simp)
    (by
      intro a h
      obtain ⟨b, hab, -⟩ := Relation.TransGen.head'_iff.mp h
      simp [edgeRel] at hab)

/-- Claim C8: if the (well-formed, duplicate-free) graph contains a cycle among
its nodes, the Scheduler's output order is strictly shorter than the node count. -/
theorem claim_c8_scheduler_cycle_short (nodes : List String) (edges : List Edge)
    (hnd : nodes.Nodup)
    (hWF : ∀ e ∈ edges, e.sourceId ∈ nodes ∧ e.targetId ∈ nodes)
    (hcyc : ∃ a, Relation.TransGen (edgeRel edges) a a) :
    (executionOrder nodes edges).length < nodes.length := by
  obtain ⟨hLnd, hLsub, hLtopo, _⟩ := executionOrder_spec nodes edges hnd hWF
  obtain ⟨a, ha⟩ := hcyc
  have hreach : ∀ u v : String, Relation.TransGen (edgeRel edges) u v →
      v ∈ executionOrder nodes edges →
      u ∈ executionOrder nodes edges ∧
        (executionOrder nodes edges).indexOf u < (executionOrder nodes edges).indexOf v := by
    intro u v h
    induction h with
    | single hr =>
        intro hv
        obtain ⟨e, he, hs, ht⟩ := hr
        subst hs
        subst ht
        exact hLtopo e he hv
    | tail _ hr ihb =>
        intro hv
        obtain ⟨e, he, hs, ht⟩ := hr
        subst hs
        subst ht
        obtain ⟨hbL, hbidx⟩ := hLtopo e he hv
        obtain ⟨huL, huidx⟩ := ihb hbL
        exact ⟨huL, lt_trans huidx hbidx⟩
  have haL : a ∉ executionOrder nodes edges := by
    intro hc
    have := hreach a a ha hc
    omega
  have han : a ∈ nodes := by
    obtain ⟨b, hab, -⟩ := Relation.TransGen.head'_iff.mp ha
    obtain ⟨e, he, hs, -⟩ := hab
    exact hs ▸ (hWF e he).1
  have hsub : (executionOrder nodes edges).toFinset ⊆ nodes.toFinset := by
    intro x hx
    simp only [List.mem_toFinset] at hx ⊢
    exact hLsub x hx
  have hss : (executionOrder nodes edges).toFinset ⊂ nodes.toFinset := by
    refine ⟨hsub, ?_⟩
    intro hc
    have : a ∈ (executionOrder nodes edges).toFinset := hc (by simpa using han)
    exact haL (by simpa using this)
  have hcard := Finset.card_lt_card hss
  rwa [List.toFinset_card_of_nodup hLnd, List.toFinset_card_of_nodup hnd] at hcard

/-- Witness for C8 at a concrete two-node cycle. -/
theorem claim_c8_scheduler_cycle_short_witness :
    (executionOrder ["a", "b"] [⟨"a", "b", none⟩, ⟨"b", "a", none⟩]).length
      < (["a", "b"] : List String).length :=
  claim_c8_scheduler_cycle_short ["a", "b"] [⟨"a", "b", none⟩, ⟨"b", "a", none⟩]
    (by simp) (by simp)
    ⟨"a",
      Relation.TransGen.tail
        (Relation.TransGen.single ⟨⟨"a", "b", none⟩, by simp, rfl, rfl⟩)
        ⟨⟨"b", "a", none⟩, by simp, rfl, rfl⟩⟩

/-! ## JS values, truthiness, and input/output bags

The values flowing through node configs, inputs and outputs are JSON-ish:
strings, arrays, and null/undefined (both collapsed to `null`). -/

inductive JValue where
  | null
  | str (s : String)
  | arr (elems : List JValue)

mutual

def decEqJValue : (v w : JValue) → Decidable (v = w)
  | .null, .null => isTrue rfl
  | .null, .str _ => isFalse (fun h => JValue.noConfusion h)
  | .null, .arr _ => isFalse (fun h => JValue.noConfusion h)
  | .str _, .null => isFalse (fun h => JValue.noConfusion h)
  | .str _, .arr _ => isFalse (fun h => JValue.noConfusion h)
  | .arr _, .null => isFalse (fun h => JValue.noConfusion h)
  | .arr _, .str _ => isFalse (fun h => JValue.noConfusion h)
  | .str s, .str t =>
      match decEq s t with
      | isTrue h => isTrue (by rw [h])
      | isFalse h => isFalse (fun hc => h (by injection hc))
  | .arr xs, .arr ys =>
      match decEqJValueList xs ys with
      | isTrue h => isTrue (by rw [h])
      | isFalse h => isFalse (fun hc => h (by injection hc))

def decEqJValueList : (xs ys : List JValue) → Decidable (xs = ys)
  | [], [] => isTrue rfl
  | [], _ :: _ => isFalse (fun h => List.noConfusion h)
  | _ :: _, [] => isFalse (fun h => List.noConfusion h)
  | x :: xs, y :: ys =>
      match decEqJValue x y, decEqJValueList xs ys with
      | isTrue h1, isTrue h2 => isTrue (by rw [h1, h2])
      | isFalse h1, _ => isFalse (fun hc => h1 (by injection hc))
      | _, isFalse h2 => isFalse (fun hc => h2 (by injection hc))

end

instance : DecidableEq JValue := decEqJValue

/-- A JS object used as a bag of named values. Reading an absent key gives
`undefined`, modelled as `JValue.null`. -/
abbrev Bag := AMap JValue

/-- JS truthiness for the values we model: `null`/`undefined` and `""` are
falsy, every array (even empty) is truthy. -/
def truthy : JValue → Bool
  | .null => false
  | .str s => !s.isEmpty
  | .arr _ => true

/-- JS `a || b`. -/
def jor (v w : JValue) : JValue := if truthy v then v else w

/-- Property read: `bag.key`, with absent keys reading as `null`. -/
def jget (b : Bag) (k : String) : JValue := (AMap.get b k).getD .null

/-- JS `String.prototype.startsWith`, computed over the underlying character
list (Lean's own `String.startsWith` is not kernel-reducible). -/
def jsStartsWith (s p : String) : Bool := p.data.isPrefixOf s.data

/-- `isValidImage` (route.ts lines 100-107): a string starting with
`http://`, `https://`, `data:image/`, `/9j/` (JPEG base64) or `iVBOR`
(PNG base64); any non-string is invalid. -/
def isValidImage : JValue → Bool
  | .str s =>
      jsStartsWith s "http://" || jsStartsWith s "https://" ||
      jsStartsWith s "data:image/" || jsStartsWith s "/9j/" || jsStartsWith s "iVBOR"
  | _ => false

/-- JS string conversion as used by template literals. -/
def jToString : JValue → String
  | .null => "null"
  | .str s => s
  | .arr xs => String.intercalate "," (xs.attach.map (fun x => jToString x.1))
decreasing_by
  have := List.sizeOf_lt_of_mem x.2
  simp
  omega

/-- JS `value?.[0]`: first array element, first character of a string,
`undefined` for `null` or an empty array/string. -/
def jIndex0 : JValue → JValue
  | .null => .null
  | .str s => if s.isEmpty then .null else .str (s.take 1)
  | .arr xs => xs.headD .null

/-! ## InputResolver (route.ts lines 127-176) -/

/-- Candidate value extracted from a producer's output bag (line 134):
`parentOutput.image || parentOutput.output || parentOutput.text || parentOutput.url`. -/
def candidateOf (p : Bag) : JValue :=
  jor (jget p "image") (jor (jget p "output") (jor (jget p "text") (jget p "url")))

/-- `if (!nodeInputs.images) nodeInputs.images = []`. -/
def ensureImages (b : Bag) : Bag :=
  if truthy (jget b "images") then b else AMap.set b "images" (.arr [])

/-- `nodeInputs.images.push(...)`: appends when `images` is an array, raises a
TypeError when it is any other truthy value (a JS runtime error, caught by the
per-node catch). -/
def pushImages (b : Bag) (vs : List JValue) : Except String Bag :=
  match jget b "images" with
  | .arr xs => .ok (AMap.set b "images" (.arr (xs ++ vs)))
  | _ => .error "TypeError: nodeInputs.images.push is not a function"

/-- Lines 139-145: the `targetHandle === \x22images\x22` branch. -/
def imagesBranch (b : Bag) (val : JValue) : Except String Bag :=
  let b := ensureImages b
  match val with
  | .arr xs => pushImages b (xs.filter (fun v => truthy v && isValidImage v))
  | v => if isValidImage v then pushImages b [v] else .ok b

/-- Lines 146-152: the `image` / `image_url` handle branch. -/
def imageBranch (b : Bag) (h : String) (val : JValue) : Except String Bag :=
  let b := AMap.set (AMap.set b "image" val) h val
  let b := ensureImages b
  if isValidImage val then pushImages b [val] else .ok b

/-- Lines 153-167: any other non-empty named handle. -/
def namedBranch (b : Bag) (h : String) (val : JValue) : Except String Bag :=
  if isValidImage val then do
    let b₁ ← pushImages (ensureImages b) [val]
    match val with
    | .str s =>
        if jsStartsWith s "data:" = false ∧ s.length < 1000 then .ok (AMap.set b₁ h val)
        else .ok b₁
    | _ => .ok b₁
  else .ok (AMap.set b h val)

/-- Lines 168-174: no target handle: `Object.assign(nodeInputs, parentOutput)`
plus the guarded push of `parentOutput.image`. -/
def assignBranch (b : Bag) (p : Bag) : Except String Bag :=
  let b := p.foldl (fun acc kv => AMap.set acc kv.1 kv.2) b
  if truthy (jget p "image") && isValidImage (jget p "image") then
    pushImages (ensureImages b) [jget p "image"]
  else .ok b

/-- Lines 131-175: route one producer's output bag into the consumer's input
bag according to the edge's target handle. -/
def resolveEdge (b : Bag) (th : Option String) (p : Bag) : Except String Bag :=
  let val := candidateOf p
  if val = JValue.null ∨ val = JValue.str "" ∨
      jget p "status" = JValue.str "no_input" ∨
      jget p "status" = JValue.str "not_extracted" then
    .ok b
  else
    match th with
    | some h =>
        if h = "images" then imagesBranch b val
        else if h = "image" ∨ h = "image_url" then imageBranch b h val
        else if h ≠ "" then namedBranch b h val
        else assignBranch b p
    | none => assignBranch b p

/-- `{ ...target, ...source }` / `Object.assign(target, source)`. -/
def bagAssign (target source : Bag) : Bag :=
  source.foldl (fun acc kv => AMap.set acc kv.1 kv.2) target

/-- Lines 129-176: fold every incoming edge of `nodeId` (in edge-list order)
into the seeded input bag, skipping producers with no recorded output. -/
def resolveInputs (edges : List Edge) (outputs : AMap Bag) (nodeId : String)
    (base : Bag) : Except String Bag :=
  (edges.filter (fun e => e.targetId == nodeId)).foldlM
    (fun b e =>
      match AMap.get outputs e.sourceId with
      | none => pure b
      | some p => resolveEdge b e.targetHandle p)
    base

/-! ## NodeExecutor (route.ts lines 178-266) -/

/-- Persisted node record, restricted to the fields the execute route reads. -/
structure WNode where
  id : String
  type : String
  config : Bag
deriving DecidableEq

/-- A call issued to the external generation collaborator. -/
inductive GenCall where
  | text (prompt : String) (model : JValue)
  | vision (prompt : String) (images : List JValue) (model : JValue)
deriving DecidableEq

/-- The external generation service: either a generated string or a thrown error. -/
def Oracle : Type := GenCall → Except String String

def llmSystem (config ni : Bag) : JValue :=
  jor (jget ni "systemPrompt") (jor (jget ni "system") (jget config "systemPrompt"))

def llmUser (config ni : Bag) : JValue :=
  jor (jget ni "userPrompt") (jor (jget ni "user") (jor (jget ni "prompt") (jget config "prompt")))

/-- Lines 189-192: prompt composition, defaulting to `"Hello"` when empty. -/
def llmPrompt (config ni : Bag) : String :=
  let fullPrompt :=
    (if truthy (llmSystem config ni) then
      "System: " ++ jToString (llmSystem config ni) ++ "\n\n" else "")
    ++ (if truthy (llmUser config ni) then
      "User: " ++ jToString (llmUser config ni) else "")
  if fullPrompt = "" then "Hello" else fullPrompt

def llmModel (config : Bag) : JValue := jor (jget config "model") (.str "gemini-2.5-flash")

/-- Lines 181-199: which generation call the `llm` case issues.
`rawImages.filter` raises a TypeError when `nodeInputs.images` is a truthy
non-array value. -/
def llmCall (config ni : Bag) : Except String GenCall :=
  match jor (jget ni "images") (.arr []) with
  | .arr xs =>
      let images := xs.filter isValidImage
      if images.length > 0 then
        .ok (.vision (llmPrompt config ni) images (llmModel config))
      else
        .ok (.text (llmPrompt config ni) (llmModel config))
  | _ => .error "TypeError: rawImages.filter is not a function"

/-- Lines 205-209: the `text` case. -/
def textOutput (config : Bag) : Bag :=
  let content := jor (jget config "content") (jor (jget config "text") (.str ""))
  [("output", content), ("text", content)]

/-- Lines 211-217: the `image` case. -/
def imageOutput (config : Bag) : Bag :=
  let imageUrl := jor (jget config "imageUrl") (jor (jget config "url") (.str ""))
  let imageBase64 := jor (jget config "imageBase64") (.str "")
  let imageOut := jor imageBase64 imageUrl
  [("output", imageOut), ("url", imageUrl), ("imageBase64", imageBase64), ("image", imageOut)]

/-- Lines 219-223: the `video` case. -/
def videoOutput (config : Bag) : Bag :=
  let videoUrl := jor (jget config "videoUrl") (jor (jget config "url") (.str ""))
  [("output", videoUrl), ("url", videoUrl)]

/-- Lines 225-246: the `crop` case. -/
def cropOutput (config ni : Bag) : Bag :=
  let croppedUrl := jget config "croppedImageUrl"
  if truthy croppedUrl && isValidImage croppedUrl then
    [("output", croppedUrl), ("url", croppedUrl), ("image", croppedUrl)]
  else
    let inputImage := jor (jget ni "image") (jor (jget ni "image_url")
      (jor (jIndex0 (jget ni "images")) (jget ni "url")))
    if truthy inputImage && isValidImage inputImage then
      [("output", inputImage), ("url", inputImage), ("image", inputImage)]
    else
      [("output", JValue.null), ("status", JValue.str "no_input")]

/-- Lines 248-262: the `extract` case. -/
def extractOutput (config : Bag) : Bag :=
  let extractedUrl := jget config "extractedFrameUrl"
  if truthy extractedUrl && isValidImage extractedUrl then
    [("output", extractedUrl), ("url", extractedUrl), ("image", extractedUrl)]
  else
    [("output", JValue.null), ("status", JValue.str "not_extracted"),
     ("message", JValue.str "Click Extract Frame on the node first")]

/-- The per-kind dispatch (lines 180-266). -/
def runNode (oracle : Oracle) (node : WNode) (ni : Bag) : Except String Bag :=
  match node.type with
  | "llm" => do
      let c ← llmCall node.config ni
      let result ← oracle c
      pure [("output", JValue.str result), ("text", JValue.str result)]
  | "text" => pure (textOutput node.config)
  | "image" => pure (imageOutput node.config)
  | "video" => pure (videoOutput node.config)
  | "crop" => pure (cropOutput node.config ni)
  | "extract" => pure (extractOutput node.config)
  | _ => pure [("output", JValue.null), ("status", JValue.str "unknown_type")]

/-! ## RunTracker: the execution loop and finalization (lines 95-324) -/

/-- A NodeExecution row, restricted to the fields the claims mention. -/
structure ExecRecord where
  status : String
  error : Option String
deriving DecidableEq

/-- Line 288: the failed node's contribution to the shared output map. -/
def failedBag (msg : String) : Bag := [("error", .str msg), ("status", .str "failed")]

/-- Lines 123-283 inside the try: resolve inputs, then dispatch. -/
def nodeAttempt (oracle : Oracle) (edges : List Edge) (outputs : AMap Bag)
    (node : WNode) (base : Bag) : Except String Bag := do
  let ni ← resolveInputs edges outputs node.id base
  runNode oracle node ni

/-- One iteration of the `for (const nodeId of executionOrder)` loop
(lines 110-299), acting on the pair (nodeOutputs, nodeExecutions). -/
def execStep (oracle : Oracle) (nodes : List WNode) (edges : List Edge) (inputs : Bag)
    (st : AMap Bag × AMap ExecRecord) (nodeId : String) : AMap Bag × AMap ExecRecord :=
  match nodes.find? (fun n => n.id == nodeId) with
  | none => st
  | some node =>
      match AMap.get st.2 nodeId with
      | none => st
      | some prev =>
          let execs := AMap.set st.2 nodeId ⟨"RUNNING", prev.error⟩
          let base := bagAssign (bagAssign [] inputs) node.config
          match nodeAttempt oracle edges st.1 node base with
          | .ok out =>
              (AMap.set st.1 nodeId out, AMap.set execs nodeId ⟨"COMPLETED", prev.error⟩)
          | .error msg =>
              (AMap.set st.1 nodeId (failedBag msg), AMap.set execs nodeId ⟨"FAILED", some msg⟩)

structure RunResult where
  outputs : AMap Bag
  execs : AMap ExecRecord
  runStatus : String

/-- The whole run (lines 44-324): schedule, execute every node in order, then
set the run status from `run.nodeExecutions.every((e) => nodeOutputs.has(e.nodeId))`. -/
def runWorkflow (oracle : Oracle) (nodes : List WNode) (edges : List Edge)
    (inputs : Bag) : RunResult :=
  let order := executionOrder (nodes.map (fun n => n.id)) edges
  let execs0 := nodes.foldl (fun m n => AMap.set m n.id ⟨"PENDING", none⟩) []
  let st := order.foldl (execStep oracle nodes edges inputs) ([], execs0)
  let allCompleted := nodes.all (fun n => (AMap.get st.1 n.id).isSome)
  ⟨st.1, st.2, if allCompleted then "COMPLETED" else "FAILED"⟩

/-! ## StatusPoller (src/stores/workflowRuntimeStore.ts lines 53-84)

One `setInterval` tick, modelled as a step function over the fetched result.
`active` is whether the interval is still installed; `isRunning` is the store's
flag; `nodeStatuses` is the republished nodeId-to-status map. -/

inductive PollFetch where
  | transportError
  | notOk
  | ok (status : String) (nodeExecs : List (String × String))
deriving DecidableEq

structure PollState where
  active : Bool
  isRunning : Bool
  nodeStatuses : AMap String
deriving DecidableEq

def isTerminal (status : String) : Bool :=
  status == "COMPLETED" || status == "FAILED" || status == "CANCELLED"

/-- One tick of `pollRun`: a thrown fetch clears the interval and reports
non-running; a non-ok response merely returns; an ok response republishes the
nodeId-to-status map and, on a terminal run status, clears the interval and
reports non-running. A cleared interval never ticks again. -/
def pollStep (s : PollState) (f : PollFetch) : PollState :=
  if s.active = false then s
  else
    match f with
    | .transportError => { s with active := false, isRunning := false }
    | .notOk => s
    | .ok status execs =>
        let statuses := execs.foldl (fun m p => AMap.set m p.1 p.2) []
        let s' : PollState := { s with nodeStatuses := statuses }
        if isTerminal status then { s' with active := false, isRunning := false } else s'

/-- The poll loop over a stream of fetched results. -/
def pollRun (s : PollState) (fs : List PollFetch) : PollState := fs.foldl pollStep s

/-! ## Resolver facts -/

theorem isValidImage_str (v : JValue) (h : isValidImage v = true) :
    ∃ s : String, v = .str s ∧ s ≠ "" ∧ truthy v = true := by
  cases v with
  | null => simp [isValidImage] at h
  | arr xs => simp [isValidImage] at h
  | str s =>
      have hne : s ≠ "" := by
        intro hc
        subst hc
        exact absurd h (by decide)
      refine ⟨s, rfl, hne, ?_⟩
      have : s.isEmpty = false := by
        cases he : s.isEmpty
        · rfl
        · exact absurd ((String.isEmpty_iff s).mp he) hne
      simp [truthy, this]

theorem jget_some (b : Bag) (k : String) (v : JValue) (hv : jget b k = v)
    (hne : v ≠ JValue.null) : AMap.get b k = some v := by
  unfold jget at hv
  cases h : AMap.get b k with
  | none => rw [h] at hv; simp at hv; exact absurd hv.symm hne
  | some w => rw [h] at hv; simp at hv; rw [hv]

/-- The list actually sitting in the bag's `images` field (empty when the field
is not an array). -/
def imagesList (b : Bag) : List JValue :=
  match jget b "images" with
  | .arr xs => xs
  | _ => []

/-- The bag's `images` field, if truthy, is an actual array (the well-formedness
under which `push` cannot raise). -/
def ImagesOk (b : Bag) : Prop :=
  truthy (jget b "images") = true → ∃ xs, jget b "images" = JValue.arr xs

theorem ensureImages_eq (b : Bag) (hb : ImagesOk b) :
    ensureImages b = AMap.set b "images" (.arr (imagesList b)) := by
  unfold ensureImages
  split
  · next htr =>
      obtain ⟨xs, hxs⟩ := hb htr
      have hget : AMap.get b "images" = some (.arr xs) := jget_some b _ _ hxs (by simp)
      have himl : imagesList b = xs := by
        unfold imagesList
        rw [hxs]
      rw [himl]
      exact (AMap.set_get_self b "images" (.arr xs) hget).symm
  · next htr =>
      simp only [Bool.not_eq_true] at htr
      have : imagesList b = [] := by
        unfold imagesList
        cases hj : jget b "images" with
        | null => rfl
        | str s => rfl
        | arr xs => rw [hj] at htr; simp [truthy] at htr
      rw [this]

theorem ensure_push_eq (b : Bag) (hb : ImagesOk b) (vs : List JValue) :
    pushImages (ensureImages b) vs
      = .ok (AMap.set b "images" (.arr (imagesList b ++ vs))) := by
  rw [ensureImages_eq b hb]
  unfold pushImages
  have hj : jget (AMap.set b "images" (.arr (imagesList b))) "images"
      = .arr (imagesList b) := by
    unfold jget
    rw [AMap.get_set_self]
    rfl
  rw [hj]
  simp only [AMap.set_set_same]

theorem pushImages_ok_imagesList (b : Bag) (vs : List JValue) (b' : Bag)
    (h : pushImages b vs = .ok b') : imagesList b' = imagesList b ++ vs := by
  unfold pushImages at h
  split at h
  · next xs hxs =>
      injection h with h'
      subst h'
      have h1 : imagesList (AMap.set b "images" (.arr (xs ++ vs))) = xs ++ vs := by
        unfold imagesList jget
        rw [AMap.get_set_self]
        rfl
      have h2 : imagesList b = xs := by
        unfold imagesList
        rw [hxs]
      rw [h1, h2]
  · exact absurd h (by simp)

theorem ensureImages_imagesList (b : Bag) : imagesList (ensureImages b) = imagesList b := by
  unfold ensureImages
  split
  · rfl
  · next htr =>
      simp only [Bool.not_eq_true] at htr
      have h1 : imagesList (AMap.set b "images" (.arr [])) = [] := by
        unfold imagesList jget
        rw [AMap.get_set_self]
        rfl
      have h2 : imagesList b = [] := by
        unfold imagesList
        cases hj : jget b "images" with
        | null => rfl
        | str s => rfl
        | arr xs => rw [hj] at htr; simp [truthy] at htr
      rw [h1, h2]

theorem set_other_imagesList (b : Bag) (k : String) (v : JValue) (hk : k ≠ "images") :
    imagesList (AMap.set b k v) = imagesList b := by
  unfold imagesList jget
  rw [AMap.get_set_ne b k "images" v (Ne.symm hk)]

/-- Claim C6: an edge whose extracted candidate is null/empty, or whose producer
bag carries the `no_input` / `not_extracted` sentinel, contributes nothing to
the consumer's input bag; and the failed-node bag `{error, status: failed}`
carries none of the extracted fields, so it always contributes nothing. -/
theorem claim_c6_skip_empty_and_failed :
    (∀ (b : Bag) (th : Option String) (p : Bag),
      (candidateOf p = JValue.null ∨ candidateOf p = JValue.str "" ∨
       jget p "status" = JValue.str "no_input" ∨
       jget p "status" = JValue.str "not_extracted") →
      resolveEdge b th p = .ok b) ∧
    (∀ msg : String,
      jget (failedBag msg) "image" = JValue.null ∧
      jget (failedBag msg) "output" = JValue.null ∧
      jget (failedBag msg) "text" = JValue.null ∧
      jget (failedBag msg) "url" = JValue.null ∧
      ∀ (b : Bag) (th : Option String), resolveEdge b th (failedBag msg) = .ok b) := by
  have hskip : ∀ (b : Bag) (th : Option String) (p : Bag),
      (candidateOf p = JValue.null ∨ candidateOf p = JValue.str "" ∨
       jget p "status" = JValue.str "no_input" ∨
       jget p "status" = JValue.str "not_extracted") →
      resolveEdge b th p = .ok b := by
    intro b th p h
    unfold resolveEdge
    rw [if_pos h]
  refine ⟨hskip, ?_⟩
  intro msg
  refine ⟨rfl, rfl, rfl, rfl, ?_⟩
  intro b th
  exact hskip b th (failedBag msg) (Or.inl rfl)

/-- Witness for C6: a failed producer bag contributes nothing through a named handle. -/
theorem claim_c6_skip_empty_and_failed_witness :
    resolveEdge [("user", JValue.str "x")] (some "prompt")
      [("output", JValue.str "v"), ("status", JValue.str "no_input")]
      = .ok [("user", JValue.str "x")] :=
  claim_c6_skip_empty_and_failed.1 [("user", JValue.str "x")] (some "prompt")
    [("output", JValue.str "v"), ("status", JValue.str "no_input")]
    (Or.inr (Or.inr (Or.inl rfl)))

/-- Claim C9: the poller step keeps polling on a non-terminal fetched status,
stops (interval cleared, `isRunning := false`) on a thrown fetch or on a
terminal fetched status, and once stopped never reacts to further fetches. -/
theorem claim_c9_poller_stops (s : PollState) :
    (s.active = true → pollStep s .transportError
        = { s with active := false, isRunning := false }) ∧
    (∀ status execs, s.active = true → isTerminal status = true →
      (pollStep s (.ok status execs)).active = false ∧
      (pollStep s (.ok status execs)).isRunning = false) ∧
    (∀ status execs, s.active = true → isTerminal status = false →
      (pollStep s (.ok status execs)).active = true) ∧
    (s.active = false → ∀ fs : List PollFetch, pollRun s fs = s) := by
  refine ⟨?_, ?_, ?_, ?_⟩
  · intro ha
    unfold pollStep
    rw [ha]
    simp
  · intro status execs ha hterm
    unfold pollStep
    rw [ha]
    simp [hterm]
  · intro status execs ha hterm
    unfold pollStep
    rw [ha]
    simp [hterm, ha]
  · intro ha fs
    induction fs with
    | nil => rfl
    | cons f fs ih =>
        have hstep : pollStep s f = s := by
          unfold pollStep
          rw [ha]
          simp
        unfold pollRun at ih ⊢
        rw [List.foldl_cons, hstep]
        exact ih

/-- Witness for C9 at a concrete state and fetches. -/
theorem claim_c9_poller_stops_witness :
    (pollStep ⟨true, true, []⟩ .transportError
        = { active := false, isRunning := false, nodeStatuses := [] } : Prop) ∧
    (pollStep ⟨true, true, []⟩ (.ok "COMPLETED" [("a", "COMPLETED")])).active = false ∧
    (pollStep ⟨true, true, []⟩ (.ok "RUNNING" [("a", "RUNNING")])).active = true ∧
    pollRun ⟨false, false, []⟩ [.ok "RUNNING" [], .transportError] = ⟨false, false, []⟩ := by
  obtain ⟨h1, h2, h3, h4⟩ := claim_c9_poller_stops ⟨true, true, []⟩
  obtain ⟨-, -, -, h5⟩ := claim_c9_poller_stops ⟨false, false, []⟩
  exact ⟨h1 rfl, (h2 "COMPLETED" [("a", "COMPLETED")] rfl rfl).1,
    h3 "RUNNING" [("a", "RUNNING")] rfl rfl, h5 rfl [.ok "RUNNING" [], .transportError]⟩

/-! ## Crop (claim C3) -/

/-- Claim C3 as written is refuted: with `inputs.image = "hello"` (truthy but
not image-valid) and `inputs.image_url = "https://a.png"` (image-valid), the
crop node yields `{output: null, status: "no_input"}` even though an
image-valid candidate exists among the four fallback fields. -/
theorem claim_c3_crop_counterexample :
    cropOutput [] [("image", JValue.str "hello"), ("image_url", JValue.str "https://a.png")]
      = [("output", JValue.null), ("status", JValue.str "no_input")] ∧
    isValidImage (jget [("image", JValue.str "hello"),
      ("image_url", JValue.str "https://a.png")] "image_url") = true := ⟨by decide, by decide⟩

/-- Claim C3 (amended): a crop node outputs its valid `config.croppedImageUrl`;
otherwise the FIRST TRUTHY candidate among `inputs.image`, `inputs.image_url`,
`inputs.images[0]`, `inputs.url`, provided that candidate is image-valid;
otherwise `{output: null, status: "no_input"}`, without raising an error. -/
theorem claim_c3_crop_amended (config ni : Bag) :
    cropOutput config ni =
      (if isValidImage (jget config "croppedImageUrl") then
        [("output", jget config "croppedImageUrl"), ("url", jget config "croppedImageUrl"),
         ("image", jget config "croppedImageUrl")]
      else
        let cand := jor (jget ni "image") (jor (jget ni "image_url")
          (jor (jIndex0 (jget ni "images")) (jget ni "url")))
        if isValidImage cand then
          [("output", cand), ("url", cand), ("image", cand)]
        else [("output", JValue.null), ("status", JValue.str "no_input")]) := by
  have hval : ∀ v : JValue, (truthy v && isValidImage v) = isValidImage v := by
    intro v
    cases hq : isValidImage v
    · simp
    · obtain ⟨s, rfl, -, ht⟩ := isValidImage_str v hq
      simp [ht]
  unfold cropOutput
  simp only [hval]

/-! ## The images handle (claims C4, C5, C10) -/

instance {ε α : Type} [DecidableEq ε] [DecidableEq α] : DecidableEq (Except ε α)
  | .ok x, .ok y =>
      match decEq x y with
      | isTrue h => isTrue (by rw [h])
      | isFalse h => isFalse (fun hc => h (by injection hc))
  | .error x, .error y =>
      match decEq x y with
      | isTrue h => isTrue (by rw [h])
      | isFalse h => isFalse (fun hc => h (by injection hc))
  | .ok _, .error _ => isFalse (fun h => Except.noConfusion h)
  | .error _, .ok _ => isFalse (fun h => Except.noConfusion h)

theorem except_bind_ok {α β : Type} (a : α) (f : α → Except String β) :
    (Except.ok a >>= f) = f a := rfl

theorem except_bind_err {α β : Type} (e : String) (f : α → Except String β) :
    ((Except.error e : Except String α) >>= f) = .error e := rfl

/-- What the exact-`images` branch appends: every image-valid array element,
or the scalar candidate when image-valid. -/
def imagesAppend : JValue → List JValue
  | .arr xs => xs.filter (fun v => truthy v && isValidImage v)
  | .null => []
  | .str s => if isValidImage (.str s) then [.str s] else []

theorem imagesBranch_eq (b : Bag) (val : JValue) (hb : ImagesOk b) :
    imagesBranch b val
      = .ok (AMap.set b "images" (JValue.arr (imagesList b ++ imagesAppend val))) := by
  unfold imagesBranch
  cases val with
  | arr xs =>
      show pushImages (ensureImages b) (xs.filter (fun v => truthy v && isValidImage v)) = _
      have ha : imagesAppend (JValue.arr xs)
          = xs.filter (fun v => truthy v && isValidImage v) := rfl
      rw [ha]
      exact ensure_push_eq b hb _
  | null =>
      show Except.ok (ensureImages b) = _
      have ha : imagesAppend JValue.null = [] := rfl
      rw [ha, List.append_nil, ensureImages_eq b hb]
  | str s =>
      show (if isValidImage (JValue.str s) = true then
          pushImages (ensureImages b) [JValue.str s] else Except.ok (ensureImages b)) = _
      by_cases hv : isValidImage (JValue.str s) = true
      · rw [if_pos hv]
        have ha : imagesAppend (JValue.str s) = [JValue.str s] := by
          simp [imagesAppend, hv]
        rw [ha]
        exact ensure_push_eq b hb _
      · rw [if_neg hv]
        simp only [Bool.not_eq_true] at hv
        have ha : imagesAppend (JValue.str s) = [] := by
          simp [imagesAppend, hv]
        rw [ha, List.append_nil, ensureImages_eq b hb]

/-- Claim C4 as written is refuted: the code tests `targetHandle === "images"`
by strict equality, so a handle that merely begins with `images` (here
`imagesA`) carrying a non-empty array candidate of valid image URLs is
assigned under the literal handle name, and nothing reaches the consumer's
`images` list. -/
theorem claim_c4_images_counterexample :
    resolveEdge [] (some "imagesA") [("output", JValue.arr [JValue.str "https://x"])]
      = .ok [("imagesA", JValue.arr [JValue.str "https://x"])] ∧
    jsStartsWith "imagesA" "images" = true ∧
    isValidImage (JValue.str "https://x") = true ∧
    jget [("imagesA", JValue.arr [JValue.str "https://x"])] "images" = JValue.null := by
  refine ⟨by decide, by decide, by decide, by decide⟩

/-- Claim C4 (amended to the strict `targetHandle === "images"` test of line
139): for an edge whose target handle is exactly `images`, with a non-empty
non-sentinel candidate, resolution appends to the consumer's `images` list
each array element (filtered through the image-validity predicate), or the
scalar candidate exactly when it is image-valid; two such edges carrying
distinct valid image URLs accumulate both URLs in edge order. -/
theorem claim_c4_images_handle_amended :
    (∀ (b p : Bag), ImagesOk b →
      jget p "status" ≠ JValue.str "no_input" →
      jget p "status" ≠ JValue.str "not_extracted" →
      candidateOf p ≠ JValue.null →
      candidateOf p ≠ JValue.str "" →
      resolveEdge b (some "images") p
        = .ok (AMap.set b "images"
            (JValue.arr (imagesList b ++ imagesAppend (candidateOf p))))) ∧
    (∀ u1 u2 : String, isValidImage (.str u1) = true → isValidImage (.str u2) = true →
      ∃ b1 : Bag, resolveEdge [] (some "images") [("image", JValue.str u1)] = .ok b1 ∧
        resolveEdge b1 (some "images") [("image", JValue.str u2)]
          = .ok [("images", JValue.arr [JValue.str u1, JValue.str u2])]) := by
  have hmain : ∀ (b p : Bag), ImagesOk b →
      jget p "status" ≠ JValue.str "no_input" →
      jget p "status" ≠ JValue.str "not_extracted" →
      candidateOf p ≠ JValue.null →
      candidateOf p ≠ JValue.str "" →
      resolveEdge b (some "images") p
        = .ok (AMap.set b "images"
            (JValue.arr (imagesList b ++ imagesAppend (candidateOf p)))) := by
    intro b p hb hs1 hs2 hv1 hv2
    unfold resolveEdge
    rw [if_neg (by
      push_neg
      exact ⟨hv1, hv2, hs1, hs2⟩)]
    show imagesBranch b (candidateOf p) = _
    exact imagesBranch_eq b (candidateOf p) hb
  refine ⟨hmain, ?_⟩
  intro u1 u2 h1 h2
  obtain ⟨s1, hs1eq, hne1, ht1⟩ := isValidImage_str _ h1
  injection hs1eq with he1
  subst he1
  obtain ⟨s2, hs2eq, hne2, ht2⟩ := isValidImage_str _ h2
  injection hs2eq with he2
  subst he2
  have hc1 : candidateOf [("image", JValue.str u1)] = .str u1 := by
    unfold candidateOf jor
    simp [jget, AMap.get, ht1]
  have hc2 : candidateOf [("image", JValue.str u2)] = .str u2 := by
    unfold candidateOf jor
    simp [jget, AMap.get, ht2]
  have hio : ImagesOk [] := by
    intro hx
    exact absurd hx (by decide)
  have hstep1 := hmain [] [("image", JValue.str u1)] hio
    (by simp [jget, AMap.get]) (by simp [jget, AMap.get])
    (by rw [hc1]; simp)
    (by rw [hc1]; intro hc; injection hc with hc'; exact hne1 hc')
  rw [hc1] at hstep1
  have ha1 : imagesAppend (JValue.str u1) = [JValue.str u1] := by simp [imagesAppend, h1]
  rw [ha1] at hstep1
  have hb1 : AMap.set ([] : Bag) "images" (JValue.arr (imagesList [] ++ [JValue.str u1]))
      = [("images", JValue.arr [JValue.str u1])] := by
    simp [AMap.set, imagesList, jget, AMap.get]
  rw [hb1] at hstep1
  refine ⟨[("images", JValue.arr [JValue.str u1])], hstep1, ?_⟩
  have hio1 : ImagesOk [("images", JValue.arr [JValue.str u1])] := by
    intro _
    exact ⟨[JValue.str u1], rfl⟩
  have hstep2 := hmain [("images", JValue.arr [JValue.str u1])]
    [("image", JValue.str u2)] hio1
    (by simp [jget, AMap.get]) (by simp [jget, AMap.get])
    (by rw [hc2]; simp)
    (by rw [hc2]; intro hc; injection hc with hc'; exact hne2 hc')
  rw [hc2] at hstep2
  have ha2 : imagesAppend (JValue.str u2) = [JValue.str u2] := by simp [imagesAppend, h2]
  rw [ha2] at hstep2
  have hb2 : AMap.set [("images", JValue.arr [JValue.str u1])] "images"
      (JValue.arr (imagesList [("images", JValue.arr [JValue.str u1])] ++ [JValue.str u2]))
      = [("images", JValue.arr [JValue.str u1, JValue.str u2])] := by
    simp [AMap.set, imagesList, jget, AMap.get]
  rw [hb2] at hstep2
  exact hstep2

/-- Witness for C4 (amended) at two concrete edges carrying distinct valid URLs. -/
theorem claim_c4_images_handle_amended_witness :
    ∃ b1 : Bag, resolveEdge [] (some "images") [("image", JValue.str "https://a")] = .ok b1 ∧
      resolveEdge b1 (some "images") [("image", JValue.str "https://b")]
        = .ok [("images", JValue.arr [JValue.str "https://a", JValue.str "https://b"])] :=
  claim_c4_images_handle_amended.2 "https://a" "https://b" (by decide) (by decide)

/-- Claim C5: for an edge with a non-empty named target handle other than
`images`/`image`/`image_url` and a non-empty non-sentinel candidate: an
image-valid candidate is always pushed onto `images`, and is additionally
assigned under the literal handle name exactly when it does not start with
`data:` and is shorter than 1000 characters; a candidate that is not
image-valid is assigned under the handle name unconditionally. -/
theorem claim_c5_named_handle (b p : Bag) (h : String)
    (hb : ImagesOk b)
    (hh1 : h ≠ "images") (hh2 : h ≠ "image") (hh3 : h ≠ "image_url") (hh4 : h ≠ "")
    (hs1 : jget p "status" ≠ JValue.str "no_input")
    (hs2 : jget p "status" ≠ JValue.str "not_extracted")
    (hv1 : candidateOf p ≠ JValue.null)
    (hv2 : candidateOf p ≠ JValue.str "") :
    (∀ s : String, candidateOf p = JValue.str s → isValidImage (JValue.str s) = true →
      resolveEdge b (some h) p =
        .ok (if jsStartsWith s "data:" = false ∧ s.length < 1000 then
            AMap.set (AMap.set b "images" (JValue.arr (imagesList b ++ [JValue.str s])))
              h (JValue.str s)
          else AMap.set b "images" (JValue.arr (imagesList b ++ [JValue.str s])))) ∧
    (isValidImage (candidateOf p) = false →
      resolveEdge b (some h) p = .ok (AMap.set b h (candidateOf p))) := by
  have hbranch : resolveEdge b (some h) p = namedBranch b h (candidateOf p) := by
    unfold resolveEdge
    rw [if_neg (by
      push_neg
      exact ⟨hv1, hv2, hs1, hs2⟩)]
    show (if h = "images" then imagesBranch b (candidateOf p)
      else if h = "image" ∨ h = "image_url" then imageBranch b h (candidateOf p)
      else if h ≠ "" then namedBranch b h (candidateOf p)
      else assignBranch b p) = _
    rw [if_neg hh1, if_neg (by
      rintro (hc | hc)
      · exact hh2 hc
      · exact hh3 hc), if_pos hh4]
  constructor
  · intro s hcs hval
    rw [hbranch, hcs]
    unfold namedBranch
    rw [if_pos hval, ensure_push_eq b hb [JValue.str s], except_bind_ok]
    show (if jsStartsWith s "data:" = false ∧ s.length < 1000 then _ else _) = _
    by_cases hcond : jsStartsWith s "data:" = false ∧ s.length < 1000
    · rw [if_pos hcond, if_pos hcond]
    · rw [if_neg hcond, if_neg hcond]
  · intro hval
    rw [hbranch]
    unfold namedBranch
    rw [if_neg (by rw [hval]; simp)]

/-- Witness for C5: a short valid image URL through handle `system` is pushed
onto `images` and also assigned under `system`. -/
theorem claim_c5_named_handle_witness :
    resolveEdge [] (some "system") [("image", JValue.str "https://a.png")]
      = .ok (if jsStartsWith "https://a.png" "data:" = false ∧
            ("https://a.png" : String).length < 1000 then
          AMap.set (AMap.set [] "images"
            (JValue.arr (imagesList [] ++ [JValue.str "https://a.png"])))
            "system" (JValue.str "https://a.png")
        else AMap.set [] "images"
          (JValue.arr (imagesList [] ++ [JValue.str "https://a.png"]))) :=
  (claim_c5_named_handle [] [("image", JValue.str "https://a.png")] "system"
    (by intro hx; exact absurd hx (by decide))
    (by decide) (by decide) (by decide) (by decide)
    (by decide) (by decide) (by decide) (by decide)).1
    "https://a.png" (by decide) (by decide)

/-! ## Every append to `images` is image-valid (claim C10) -/

/-- The invariant each routing branch must preserve: the `images` list only
ever grows at the tail, and every appended element is image-valid. -/
def AppendsValid (b b' : Bag) : Prop :=
  ∃ app : List JValue, imagesList b' = imagesList b ++ app ∧
    ∀ v ∈ app, isValidImage v = true

theorem appendsValid_refl (b : Bag) : AppendsValid b b :=
  ⟨[], by simp, by simp⟩

theorem imagesBranch_appends (b : Bag) (val : JValue) (b' : Bag)
    (hok : imagesBranch b val = .ok b') : AppendsValid b b' := by
  unfold imagesBranch at hok
  cases val with
  | arr xs =>
      replace hok : pushImages (ensureImages b)
          (xs.filter (fun v => truthy v && isValidImage v)) = .ok b' := hok
      have := pushImages_ok_imagesList _ _ _ hok
      rw [ensureImages_imagesList] at this
      refine ⟨_, this, ?_⟩
      intro v hv
      rw [List.mem_filter] at hv
      have h2 := hv.2
      simp at h2
      exact h2.2
  | null =>
      replace hok : Except.ok (ensureImages b) = .ok b' := hok
      injection hok with hok
      subst hok
      exact ⟨[], by rw [ensureImages_imagesList, List.append_nil], by simp⟩
  | str s =>
      replace hok : (if isValidImage (JValue.str s) = true then
          pushImages (ensureImages b) [JValue.str s]
          else Except.ok (ensureImages b)) = .ok b' := hok
      by_cases hv : isValidImage (JValue.str s) = true
      · rw [if_pos hv] at hok
        have := pushImages_ok_imagesList _ _ _ hok
        rw [ensureImages_imagesList] at this
        refine ⟨_, this, ?_⟩
        intro v hvm
        rw [List.mem_singleton] at hvm
        subst hvm
        exact hv
      · rw [if_neg hv] at hok
        injection hok with hok
        subst hok
        exact ⟨[], by rw [ensureImages_imagesList, List.append_nil], by simp⟩

theorem imageBranch_appends (b : Bag) (h : String) (val : JValue) (b' : Bag)
    (hh : h ≠ "images") (hok : imageBranch b h val = .ok b') : AppendsValid b b' := by
  unfold imageBranch at hok
  set b1 : Bag := AMap.set (AMap.set b "image" val) h val with hb1
  have himl : imagesList b1 = imagesList b := by
    rw [hb1, set_other_imagesList _ _ _ hh, set_other_imagesList _ _ _ (by decide)]
  by_cases hv : isValidImage val = true
  · rw [if_pos hv] at hok
    have := pushImages_ok_imagesList _ _ _ hok
    rw [ensureImages_imagesList, himl] at this
    refine ⟨_, this, ?_⟩
    intro v hvm
    rw [List.mem_singleton] at hvm
    subst hvm
    exact hv
  · rw [if_neg hv] at hok
    injection hok with hok
    subst hok
    exact ⟨[], by rw [ensureImages_imagesList, himl, List.append_nil], by simp⟩

theorem namedBranch_appends (b : Bag) (h : String) (val : JValue) (b' : Bag)
    (hh : h ≠ "images") (hok : namedBranch b h val = .ok b') : AppendsValid b b' := by
  unfold namedBranch at hok
  by_cases hv : isValidImage val = true
  · rw [if_pos hv] at hok
    cases hp : pushImages (ensureImages b) [val] with
    | error e =>
        rw [hp, except_bind_err] at hok
        exact absurd hok (by simp)
    | ok B =>
        rw [hp, except_bind_ok] at hok
        have hB := pushImages_ok_imagesList _ _ _ hp
        rw [ensureImages_imagesList] at hB
        have happ : AppendsValid b B := by
          refine ⟨_, hB, ?_⟩
          intro v hvm
          rw [List.mem_singleton] at hvm
          subst hvm
          exact hv
        cases val with
        | str s =>
            replace hok : (if jsStartsWith s "data:" = false ∧ s.length < 1000 then
                Except.ok (AMap.set B h (JValue.str s)) else Except.ok B) = .ok b' := hok
            by_cases hcond : jsStartsWith s "data:" = false ∧ s.length < 1000
            · rw [if_pos hcond] at hok
              injection hok with hok
              subst hok
              obtain ⟨app, happ1, happ2⟩ := happ
              exact ⟨app, by rw [set_other_imagesList _ _ _ hh, happ1], happ2⟩
            · rw [if_neg hcond] at hok
              injection hok with hok
              subst hok
              exact happ
        | null =>
            replace hok : Except.ok B = .ok b' := hok
            injection hok with hok
            subst hok
            exact happ
        | arr xs =>
            replace hok : Except.ok B = .ok b' := hok
            injection hok with hok
            subst hok
            exact happ
  · rw [if_neg hv] at hok
    injection hok with hok
    subst hok
    exact ⟨[], by rw [set_other_imagesList _ _ _ hh, List.append_nil], by simp⟩

theorem bagAssign_imagesList (p : Bag) :
    ∀ b : Bag, (∀ kv ∈ p, kv.1 ≠ "images") →
      imagesList (p.foldl (fun acc kv => AMap.set acc kv.1 kv.2) b) = imagesList b := by
  induction p with
  | nil => intro b _; rfl
  | cons kv rest ih =>
      intro b hk
      rw [List.foldl_cons]
      rw [ih (AMap.set b kv.1 kv.2) (fun kv' hkv' => hk kv' (by simp [hkv']))]
      exact set_other_imagesList b kv.1 kv.2 (hk kv (by simp))

theorem assignBranch_appends (b p : Bag) (b' : Bag)
    (hpi : AMap.get p "images" = none)
    (hok : assignBranch b p = .ok b') : AppendsValid b b' := by
  unfold assignBranch at hok
  have hkeys : ∀ kv ∈ p, kv.1 ≠ "images" := (AMap.get_eq_none_iff p "images").mp hpi
  have hfold := bagAssign_imagesList p b hkeys
  by_cases hv : (truthy (jget p "image") && isValidImage (jget p "image")) = true
  · rw [if_pos hv] at hok
    have := pushImages_ok_imagesList _ _ _ hok
    rw [ensureImages_imagesList, hfold] at this
    refine ⟨_, this, ?_⟩
    intro v hvm
    rw [List.mem_singleton] at hvm
    subst hvm
    have hv' := hv
    simp at hv'
    exact hv'.2
  · rw [if_neg hv] at hok
    injection hok with hok
    subst hok
    exact ⟨[], by rw [hfold, List.append_nil], by simp⟩

/-- Claim C10 (implicit invariant): on every successful edge-routing step whose
producer bag carries no `images` key (true of every bag the engine itself
produces), the consumer's `images` list only grows by values satisfying the
image-validity predicate — no branch ever appends an invalid value. -/
theorem claim_c10_images_append_valid (b : Bag) (th : Option String) (p : Bag) (b' : Bag)
    (hok : resolveEdge b th p = .ok b')
    (hpi : AMap.get p "images" = none) :
    ∃ app : List JValue, imagesList b' = imagesList b ++ app ∧
      ∀ v ∈ app, isValidImage v = true := by
  unfold resolveEdge at hok
  by_cases hskip : candidateOf p = JValue.null ∨ candidateOf p = JValue.str "" ∨
      jget p "status" = JValue.str "no_input" ∨
      jget p "status" = JValue.str "not_extracted"
  · rw [if_pos hskip] at hok
    injection hok with hok
    subst hok
    exact appendsValid_refl b
  · rw [if_neg hskip] at hok
    cases th with
    | none =>
        replace hok : assignBranch b p = Except.ok b' := hok
        exact assignBranch_appends b p b' hpi hok
    | some h =>
        replace hok : (if h = "images" then imagesBranch b (candidateOf p)
            else if h = "image" ∨ h = "image_url" then imageBranch b h (candidateOf p)
            else if h ≠ "" then namedBranch b h (candidateOf p)
            else assignBranch b p) = Except.ok b' := hok
        by_cases h1 : h = "images"
        · rw [if_pos h1] at hok
          exact imagesBranch_appends b _ b' hok
        · rw [if_neg h1] at hok
          by_cases h2 : h = "image" ∨ h = "image_url"
          · rw [if_pos h2] at hok
            refine imageBranch_appends b h _ b' ?_ hok
            rcases h2 with h2 | h2 <;> subst h2 <;> decide
          · rw [if_neg h2] at hok
            by_cases h3 : h ≠ ""
            · rw [if_pos h3] at hok
              exact namedBranch_appends b h _ b' h1 hok
            · rw [if_neg h3] at hok
              exact assignBranch_appends b p b' hpi hok

/-- Witness for C10: an ordinary text edge leaves the (empty) `images` list
untouched. -/
theorem claim_c10_images_append_valid_witness :
    ∃ app : List JValue,
      imagesList [("user", JValue.str "hello")] = imagesList [] ++ app ∧
      ∀ v ∈ app, isValidImage v = true :=
  claim_c10_images_append_valid [] (some "user") [("output", JValue.str "hello")]
    [("user", JValue.str "hello")] (by decide) (by decide)

/-! ## The llm dispatch (claim C7) -/

/-- Claim C7: the llm node filters the resolved `images` list through the
image-validity predicate; with zero valid images the text-generation
collaborator is called with (prompt, model), with one or more valid images the
vision-generation collaborator is called with exactly those images; the prompt
is composed as `System: {system}\n\nUser: {user}` including only the parts
present, and equals the literal `"Hello"` when both are empty. -/
theorem claim_c7_llm_dispatch (config ni : Bag) (imgs : List JValue)
    (himg : jget ni "images" = JValue.arr imgs) :
    (imgs.filter isValidImage = [] →
      llmCall config ni = .ok (.text (llmPrompt config ni) (llmModel config))) ∧
    (imgs.filter isValidImage ≠ [] →
      llmCall config ni
        = .ok (.vision (llmPrompt config ni) (imgs.filter isValidImage) (llmModel config))) ∧
    (truthy (llmSystem config ni) = false → truthy (llmUser config ni) = false →
      llmPrompt config ni = "Hello") ∧
    (truthy (llmSystem config ni) = true → truthy (llmUser config ni) = true →
      llmPrompt config ni = ("System: " ++ jToString (llmSystem config ni) ++ "\n\n")
        ++ ("User: " ++ jToString (llmUser config ni))) ∧
    (truthy (llmSystem config ni) = true → truthy (llmUser config ni) = false →
      llmPrompt config ni = "System: " ++ jToString (llmSystem config ni) ++ "\n\n") ∧
    (truthy (llmSystem config ni) = false → truthy (llmUser config ni) = true →
      llmPrompt config ni = "User: " ++ jToString (llmUser config ni)) := by
  have hraw : jor (jget ni "images") (.arr []) = .arr imgs := by
    rw [himg]
    unfold jor
    simp [truthy]
  have hcall : llmCall config ni =
      (if 0 < (imgs.filter isValidImage).length then
        Except.ok (.vision (llmPrompt config ni) (imgs.filter isValidImage) (llmModel config))
      else Except.ok (.text (llmPrompt config ni) (llmModel config))) := by
    unfold llmCall
    rw [hraw]
  have hne_su : ∀ t u : String,
      ("System: " ++ t ++ "\n\n") ++ ("User: " ++ u) ≠ "" := by
    intro t u hc
    have hlen := congrArg String.length hc
    simp only [String.length_append] at hlen
    have h1 : ("System: " : String).length = 8 := by decide
    have h2 : ("\n\n" : String).length = 2 := by decide
    have h3 : ("User: " : String).length = 6 := by decide
    have h4 : ("" : String).length = 0 := by decide
    omega
  have hne_s : ∀ t : String, "System: " ++ t ++ "\n\n" ≠ "" := by
    intro t hc
    have hlen := congrArg String.length hc
    simp only [String.length_append] at hlen
    have h1 : ("System: " : String).length = 8 := by decide
    have h2 : ("\n\n" : String).length = 2 := by decide
    have h4 : ("" : String).length = 0 := by decide
    omega
  have hne_u : ∀ u : String, "User: " ++ u ≠ "" := by
    intro u hc
    have hlen := congrArg String.length hc
    simp only [String.length_append] at hlen
    have h3 : ("User: " : String).length = 6 := by decide
    have h4 : ("" : String).length = 0 := by decide
    omega
  refine ⟨?_, ?_, ?_, ?_, ?_, ?_⟩
  · intro hfil
    rw [hcall, hfil]
    simp
  · intro hfil
    rw [hcall, if_pos (List.length_pos.mpr hfil)]
  · intro hs hu
    unfold llmPrompt
    rw [hs, hu]
    simp
  · intro hs hu
    unfold llmPrompt
    rw [hs, hu]
    simp only [if_true]
    rw [if_neg (hne_su (jToString (llmSystem config ni)) (jToString (llmUser config ni)))]
  · intro hs hu
    unfold llmPrompt
    rw [hs, hu]
    simp only [if_true, Bool.false_eq_true, if_false]
    have happ : ("System: " ++ jToString (llmSystem config ni) ++ "\n\n") ++ ""
        = "System: " ++ jToString (llmSystem config ni) ++ "\n\n" := by
      simp
    rw [happ, if_neg (hne_s (jToString (llmSystem config ni)))]
  · intro hs hu
    unfold llmPrompt
    rw [hs, hu]
    simp only [if_true, Bool.false_eq_true, if_false]
    have happ : ("" : String) ++ ("User: " ++ jToString (llmUser config ni))
        = "User: " ++ jToString (llmUser config ni) := by
      simp
    rw [happ, if_neg (hne_u (jToString (llmUser config ni)))]

/-- Witness for C7 at a concrete llm configuration with no resolved images. -/
theorem claim_c7_llm_dispatch_witness :
    llmCall [] [("images", JValue.arr []), ("prompt", JValue.str "hi")]
      = .ok (.text (llmPrompt [] [("images", JValue.arr []), ("prompt", JValue.str "hi")])
          (llmModel [])) ∧
    llmPrompt [] [("images", JValue.arr []), ("prompt", JValue.str "hi")]
      = "User: " ++ jToString (llmUser [] [("images", JValue.arr []), ("prompt", JValue.str "hi")]) := by
  obtain ⟨h1, -, -, -, -, h6⟩ :=
    claim_c7_llm_dispatch [] [("images", JValue.arr []), ("prompt", JValue.str "hi")] [] rfl
  exact ⟨h1 rfl, h6 (by decide) (by decide)⟩

/-! ## Run finalization and failure containment (claim C2)

The only throw sites in the per-node try block are the JS TypeErrors of the
resolver/llm paths (non-empty constant messages) and the external generation
call; so under an oracle whose error messages are non-empty, every FAILED
execution record carries a non-empty error string. -/

theorem pushImages_error_ne (b : Bag) (vs : List JValue) (m : String)
    (h : pushImages b vs = .error m) : m ≠ "" := by
  unfold pushImages at h
  split at h
  · exact absurd h (by simp)
  · injection h with h'
    subst h'
    decide

theorem except_bind_error_cases {α β : Type} (x : Except String α)
    (f : α → Except String β) (m : String) (h : (x >>= f) = .error m) :
    x = .error m ∨ ∃ a, x = .ok a ∧ f a = .error m := by
  cases x with
  | error e =>
      rw [except_bind_err] at h
      injection h with h'
      subst h'
      exact Or.inl rfl
  | ok a =>
      rw [except_bind_ok] at h
      exact Or.inr ⟨a, rfl, h⟩

theorem imagesBranch_error_ne (b : Bag) (val : JValue) (m : String)
    (h : imagesBranch b val = .error m) : m ≠ "" := by
  unfold imagesBranch at h
  cases val with
  | arr xs => exact pushImages_error_ne _ _ _ h
  | null =>
      replace h : Except.ok (ensureImages b) = .error m := h
      exact absurd h (by simp)
  | str s =>
      replace h : (if isValidImage (JValue.str s) = true then
          pushImages (ensureImages b) [JValue.str s]
          else Except.ok (ensureImages b)) = .error m := h
      split at h
      · exact pushImages_error_ne _ _ _ h
      · exact absurd h (by simp)

theorem imageBranch_error_ne (b : Bag) (hs : String) (val : JValue) (m : String)
    (h : imageBranch b hs val = .error m) : m ≠ "" := by
  unfold imageBranch at h
  split at h
  · exact pushImages_error_ne _ _ _ h
  · exact absurd h (by simp)

theorem namedBranch_error_ne (b : Bag) (hs : String) (val : JValue) (m : String)
    (h : namedBranch b hs val = .error m) : m ≠ "" := by
  unfold namedBranch at h
  split at h
  · rcases except_bind_error_cases _ _ _ h with h1 | ⟨B, -, h2⟩
    · exact pushImages_error_ne _ _ _ h1
    · cases val with
      | str s =>
          replace h2 : (if jsStartsWith s "data:" = false ∧ s.length < 1000 then
              Except.ok (AMap.set B hs (JValue.str s)) else Except.ok B) = .error m := h2
          split at h2
          · exact absurd h2 (by simp)
          · exact absurd h2 (by simp)
      | null =>
          replace h2 : Except.ok B = .error m := h2
          exact absurd h2 (by simp)
      | arr xs =>
          replace h2 : Except.ok B = .error m := h2
          exact absurd h2 (by simp)
  · exact absurd h (by simp)

theorem assignBranch_error_ne (b p : Bag) (m : String)
    (h : assignBranch b p = .error m) : m ≠ "" := by
  unfold assignBranch at h
  split at h
  · exact pushImages_error_ne _ _ _ h
  · exact absurd h (by simp)

theorem resolveEdge_error_ne (b : Bag) (th : Option String) (p : Bag) (m : String)
    (h : resolveEdge b th p = .error m) : m ≠ "" := by
  unfold resolveEdge at h
  by_cases hskip : candidateOf p = JValue.null ∨ candidateOf p = JValue.str "" ∨
      jget p "status" = JValue.str "no_input" ∨ jget p "status" = JValue.str "not_extracted"
  · rw [if_pos hskip] at h
    exact absurd h (by simp)
  · rw [if_neg hskip] at h
    cases th with
    | none =>
        replace h : assignBranch b p = .error m := h
        exact assignBranch_error_ne _ _ _ h
    | some hs =>
        replace h : (if hs = "images" then imagesBranch b (candidateOf p)
            else if hs = "image" ∨ hs = "image_url" then imageBranch b hs (candidateOf p)
            else if hs ≠ "" then namedBranch b hs (candidateOf p)
            else assignBranch b p) = .error m := h
        split at h
        · exact imagesBranch_error_ne _ _ _ h
        · split at h
          · exact imageBranch_error_ne _ _ _ _ h
          · split at h
            · exact namedBranch_error_ne _ _ _ _ h
            · exact assignBranch_error_ne _ _ _ h

theorem resolveFold_error_ne (outputs : AMap Bag) :
    ∀ (l : List Edge) (b : Bag) (m : String),
      (l.foldlM (fun b e =>
        match AMap.get outputs e.sourceId with
        | none => pure b
        | some p => resolveEdge b e.targetHandle p) b) = .error m → m ≠ ""
  | [], b, m => by
      intro h
      exact absurd h (by simp [List.foldlM, pure, Except.pure])
  | e :: l, b, m => by
      intro h
      rw [List.foldlM_cons] at h
      rcases except_bind_error_cases _ _ _ h with h1 | ⟨b', -, h2⟩
      · cases hg : AMap.get outputs e.sourceId with
        | none =>
            rw [hg] at h1
            exact absurd h1 (by simp [pure, Except.pure])
        | some p =>
            rw [hg] at h1
            exact resolveEdge_error_ne _ _ _ _ h1
      · exact resolveFold_error_ne outputs l b' m h2

theorem resolveInputs_error_ne (edges : List Edge) (outputs : AMap Bag)
    (nodeId : String) (base : Bag) (m : String)
    (h : resolveInputs edges outputs nodeId base = .error m) : m ≠ "" := by
  unfold resolveInputs at h
  exact resolveFold_error_ne outputs _ base m h

theorem llmCall_error_ne (config ni : Bag) (m : String)
    (h : llmCall config ni = .error m) : m ≠ "" := by
  unfold llmCall at h
  split at h
  · next xs hxs =>
      replace h : (if (xs.filter isValidImage).length > 0 then
          Except.ok (GenCall.vision (llmPrompt config ni) (xs.filter isValidImage)
            (llmModel config))
          else Except.ok (GenCall.text (llmPrompt config ni) (llmModel config)))
          = .error m := h
      split at h
      · exact absurd h (by simp)
      · exact absurd h (by simp)
  · injection h with h'
    subst h'
    decide

theorem runNode_error_ne (oracle : Oracle)
    (hmsg : ∀ c m, oracle c = .error m → m ≠ "")
    (node : WNode) (ni : Bag) (m : String)
    (h : runNode oracle node ni = .error m) : m ≠ "" := by
  unfold runNode at h
  split at h
  · rcases except_bind_error_cases _ _ _ h with h1 | ⟨c, -, h2⟩
    · exact llmCall_error_ne _ _ _ h1
    · rcases except_bind_error_cases _ _ _ h2 with h3 | ⟨r, -, h4⟩
      · exact hmsg c m h3
      · exact absurd h4 (by simp [pure, Except.pure])
  · exact absurd h (by simp [pure, Except.pure])
  · exact absurd h (by simp [pure, Except.pure])
  · exact absurd h (by simp [pure, Except.pure])
  · exact absurd h (by simp [pure, Except.pure])
  · exact absurd h (by simp [pure, Except.pure])
  · exact absurd h (by simp [pure, Except.pure])

theorem nodeAttempt_error_ne (oracle : Oracle)
    (hmsg : ∀ c m, oracle c = .error m → m ≠ "")
    (edges : List Edge) (outputs : AMap Bag) (node : WNode) (base : Bag) (m : String)
    (h : nodeAttempt oracle edges outputs node base = .error m) : m ≠ "" := by
  unfold nodeAttempt at h
  rcases except_bind_error_cases _ _ _ h with h1 | ⟨ni, -, h2⟩
  · exact resolveInputs_error_ne _ _ _ _ _ h1
  · exact runNode_error_ne oracle hmsg node ni m h2

/-- The invariant claim C2 needs of the execution-record map: every FAILED
record carries a non-empty error string. -/
def ErrOk (execs : AMap ExecRecord) : Prop :=
  ∀ nid r, AMap.get execs nid = some r → r.status = "FAILED" →
    ∃ m, r.error = some m ∧ m ≠ ""

theorem errOk_nil : ErrOk [] := by
  intro nid r hget
  exact absurd hget (by simp [AMap.get])

theorem errOk_set (execs : AMap ExecRecord) (h : ErrOk execs) (nid : String)
    (r : ExecRecord) (hr : r.status = "FAILED" → ∃ m, r.error = some m ∧ m ≠ "") :
    ErrOk (AMap.set execs nid r) := by
  intro nid' r' hget hst
  by_cases he : nid' = nid
  · subst he
    rw [AMap.get_set_self] at hget
    injection hget with hg
    subst hg
    exact hr hst
  · rw [AMap.get_set_ne _ _ _ _ he] at hget
    exact h nid' r' hget hst

theorem errOk_execs0 (nodes : List WNode) :
    ∀ acc : AMap ExecRecord, ErrOk acc →
      ErrOk (nodes.foldl (fun m n => AMap.set m n.id ⟨"PENDING", none⟩) acc) := by
  induction nodes with
  | nil => intro acc h; exact h
  | cons n ns ih =>
      intro acc h
      rw [List.foldl_cons]
      exact ih _ (errOk_set acc h n.id _ (by intro hst; simp at hst))

theorem errOk_execStep (oracle : Oracle) (nodes : List WNode) (edges : List Edge)
    (inputs : Bag) (hmsg : ∀ c m, oracle c = .error m → m ≠ "")
    (st : AMap Bag × AMap ExecRecord) (nodeId : String) (h : ErrOk st.2) :
    ErrOk (execStep oracle nodes edges inputs st nodeId).2 := by
  unfold execStep
  split
  · exact h
  · next nd hfind =>
      split
      · exact h
      · next prev hget =>
          cases hatt : nodeAttempt oracle edges st.1 nd
              (bagAssign (bagAssign [] inputs) nd.config) with
          | ok out =>
              simp only [hatt]
              exact errOk_set _ (errOk_set _ h _ _ (by intro hst; simp at hst)) _ _
                (by intro hst; simp at hst)
          | error msg =>
              simp only [hatt]
              refine errOk_set _ (errOk_set _ h _ _ (by intro hst; simp at hst)) _ _ ?_
              intro _
              exact ⟨msg, rfl, nodeAttempt_error_ne oracle hmsg _ _ _ _ _ hatt⟩

/-- Claim C2: the run's final status is COMPLETED iff every node has an entry
in the in-memory output map (was attempted), independent of individual
outcomes; and (under an oracle whose thrown messages are non-empty) every
FAILED execution record carries a non-empty error string. -/
theorem claim_c2_run_completed_iff_attempted (oracle : Oracle) (nodes : List WNode)
    (edges : List Edge) (inputs : Bag)
    (hmsg : ∀ c m, oracle c = .error m → m ≠ "") :
    ((runWorkflow oracle nodes edges inputs).runStatus = "COMPLETED" ↔
      ∀ n ∈ nodes,
        (AMap.get (runWorkflow oracle nodes edges inputs).outputs n.id).isSome = true) ∧
    (∀ nid r, AMap.get (runWorkflow oracle nodes edges inputs).execs nid = some r →
      r.status = "FAILED" → ∃ m, r.error = some m ∧ m ≠ "") := by
  have hstatus : (runWorkflow oracle nodes edges inputs).runStatus
      = if nodes.all (fun n =>
          (AMap.get (runWorkflow oracle nodes edges inputs).outputs n.id).isSome)
        then "COMPLETED" else "FAILED" := rfl
  constructor
  · rw [hstatus]
    by_cases hall : nodes.all (fun n =>
        (AMap.get (runWorkflow oracle nodes edges inputs).outputs n.id).isSome) = true
    · rw [if_pos hall]
      simp only [List.all_eq_true] at hall
      exact ⟨fun _ => hall, fun _ => rfl⟩
    · rw [if_neg hall]
      constructor
      · intro hc
        exact absurd hc (by decide)
      · intro hforall
        exact absurd (List.all_eq_true.mpr hforall) hall
  · have h0 : ErrOk (nodes.foldl (fun m n => AMap.set m n.id ⟨"PENDING", none⟩)
        ([] : AMap ExecRecord)) :=
      errOk_execs0 nodes [] errOk_nil
    have hfold : ∀ (ord : List String) (st : AMap Bag × AMap ExecRecord), ErrOk st.2 →
        ErrOk (ord.foldl (execStep oracle nodes edges inputs) st).2 := by
      intro ord
      induction ord with
      | nil => intro st hst; exact hst
      | cons x xs ih =>
          intro st hst
          rw [List.foldl_cons]
          exact ih _ (errOk_execStep oracle nodes edges inputs hmsg st x hst)
    exact hfold (executionOrder (nodes.map (fun n => n.id)) edges)
      ([], nodes.foldl (fun m n => AMap.set m n.id ⟨"PENDING", none⟩) []) h0

/-- The always-throwing generation service used by the C2 witness. -/
def oracleFailBoom : Oracle := fun _ => .error "boom"

/-- Witness for C2: a single llm node whose generation call throws `"boom"` is
recorded FAILED with that non-empty error, yet (being attempted, hence present
in the output map) the run still finishes COMPLETED. -/
theorem claim_c2_run_completed_iff_attempted_witness :
    (((runWorkflow oracleFailBoom [⟨"n1", "llm", []⟩] [] []).runStatus = "COMPLETED") ↔
      ∀ n ∈ ([⟨"n1", "llm", []⟩] : List WNode),
        (AMap.get (runWorkflow oracleFailBoom [⟨"n1", "llm", []⟩] [] []).outputs n.id).isSome
          = true) ∧
    (∀ nid r,
      AMap.get (runWorkflow oracleFailBoom [⟨"n1", "llm", []⟩] [] []).execs nid = some r →
      r.status = "FAILED" → ∃ m, r.error = some m ∧ m ≠ "") ∧
    (runWorkflow oracleFailBoom [⟨"n1", "llm", []⟩] [] []).runStatus = "COMPLETED" ∧
    AMap.get (runWorkflow oracleFailBoom [⟨"n1", "llm", []⟩] [] []).execs "n1"
      = some ⟨"FAILED", some "boom"⟩ := by
  obtain ⟨h1, h2⟩ := claim_c2_run_completed_iff_attempted oracleFailBoom
    [⟨"n1", "llm", []⟩] [] []
    (by
      intro c m h
      injection h with h'
      subst h'
      decide)
  exact ⟨h1, h2, by decide, by decide⟩

end Namah
